import Mathlib

/-!
# Sourcetrail code view: QtCodeFile / QtCodeFileList

A shallow embedding of `src/lib_gui/qt/element/QtCodeFile.cpp` and
`src/lib_gui/qt/element/QtCodeFileList.cpp`.

* Widgets are records of the state the code reads or writes (line range,
  shown/hidden, enabled/disabled, label text).  Layout, style sheets and
  dynamic style properties (`isFirst`, `isLast`) are not represented.
* `uint` line numbers are naturals; the two `+ 1` of the insertion loop
  are computed modulo `2^32` as in the source.
* A dispatched `MessageChangeFileView` is the value returned by the
  function that dispatches it.
* Functions of `QtCodeFile` that ask their parent list for the error
  entries take the list's `m_errorInfos` as an argument.
-/

namespace Sourcetrail

/-- Number of values of the C++ type `uint` (32 bit). -/
def UINT_MOD : Nat := 4294967296

/-- File paths, compared with `==`. -/
abbrev FilePath := String

/-- The part of `TokenLocationFile` that the two files read. -/
structure TokenLocationFile where
  filePath : FilePath
  isWholeCopy : Bool
  tokenIds : List Nat
deriving DecidableEq, Repr

/-- The fields of `CodeSnippetParams` that the two files read. -/
structure CodeSnippetParams where
  locationFile : TokenLocationFile
  startLineNumber : Nat
  endLineNumber : Nat
  refCount : Int
  reduced : Bool
  modificationTime : Nat
deriving DecidableEq, Repr

/-- One entry of `QtCodeFileList::m_errorInfos`. -/
structure ErrorInfo where
  message : String
  filePath : FilePath
  isFatal : Bool
deriving DecidableEq, Repr

/-- State of a `QtCodeSnippet` widget: its inclusive line range, whether it
is shown, and the active-file flag. -/
structure QtCodeSnippet where
  startLineNumber : Nat
  endLineNumber : Nat
  visible : Bool
  isActiveFile : Bool
deriving DecidableEq, Repr

namespace QtCodeSnippet

/-- The constructor `QtCodeSnippet(params, file)`: a fresh widget for the
line range of the parameters. -/
def ofParams (params : CodeSnippetParams) : QtCodeSnippet :=
  { startLineNumber := params.startLineNumber
    endLineNumber := params.endLineNumber
    visible := false
    isActiveFile := false }

/-- Modelled from the spec: `QtCodeSnippet::merged` is not part of the two
source files; it builds a fresh snippet "spanning the union of the two
ranges", from the smaller start line to the larger end line. -/
def merged (a b : QtCodeSnippet) : QtCodeSnippet :=
  { startLineNumber := min a.startLineNumber b.startLineNumber
    endLineNumber := max a.endLineNumber b.endLineNumber
    visible := false
    isActiveFile := false }

/-- Widget `show()`. -/
def «show» (s : QtCodeSnippet) : QtCodeSnippet := { s with visible := true }

/-- Widget `hide()`. -/
def hide (s : QtCodeSnippet) : QtCodeSnippet := { s with visible := false }

/-- The setter `setIsActiveFile`. -/
def setIsActiveFile (b : Bool) (s : QtCodeSnippet) : QtCodeSnippet :=
  { s with isActiveFile := b }

/-- The inclusive line range of a snippet. -/
def range (s : QtCodeSnippet) : Nat × Nat := (s.startLineNumber, s.endLineNumber)

end QtCodeSnippet

/-- The reference-count label `m_referenceCount`. -/
structure QLabel where
  visible : Bool
  text : String
deriving DecidableEq, Repr

/-- The `type` of a `MessageChangeFileView`. -/
inductive FileState where
  | FILE_MINIMIZED
  | FILE_SNIPPETS
  | FILE_MAXIMIZED
deriving DecidableEq, Repr

/-- A dispatched `MessageChangeFileView`, with the constructor arguments in
their order. -/
structure MessageChangeFileView where
  filePath : FilePath
  state : FileState
  needsData : Bool
  showErrors : Bool
  locationFile : Option TokenLocationFile
deriving DecidableEq, Repr

/-- State of a `QtCodeFile`. -/
structure QtCodeFile where
  m_filePath : FilePath
  m_snippetsRequested : Bool
  m_locationFile : Option TokenLocationFile
  m_fileSnippet : Option QtCodeSnippet
  m_snippets : List QtCodeSnippet
  m_modificationTime : Nat
  visible : Bool
  titleVisible : Bool
  minimizeButtonEnabled : Bool
  snippetButtonEnabled : Bool
  maximizeButtonEnabled : Bool
  m_referenceCount : QLabel
deriving DecidableEq, Repr

/-- State of a `QtCodeFileList`. -/
structure QtCodeFileList where
  m_files : List QtCodeFile
  m_errorInfos : List ErrorInfo
  m_activeTokenIds : List Nat
  m_activeLocalSymbolIds : List Nat
  m_focusedTokenIds : List Nat
deriving DecidableEq, Repr

/-! ## QtCodeFileList: error queries -/

/-- The query `QtCodeFileList::hasErrors`. -/
def hasErrors (m_errorInfos : List ErrorInfo) : Bool :=
  decide (m_errorInfos.length > 0)

/-- The loop of `QtCodeFileList::getFatalErrorCountForFile`, with the
running counter. -/
def fatalErrorCountLoop (filePath : FilePath) : List ErrorInfo → Nat → Nat
  | [], fatalErrorCount => fatalErrorCount
  | error :: rest, fatalErrorCount =>
    if error.filePath == filePath && error.isFatal then
      fatalErrorCountLoop filePath rest (fatalErrorCount + 1)
    else
      fatalErrorCountLoop filePath rest fatalErrorCount

/-- The query `QtCodeFileList::getFatalErrorCountForFile`. -/
def getFatalErrorCountForFile (m_errorInfos : List ErrorInfo) (filePath : FilePath) : Nat :=
  fatalErrorCountLoop filePath m_errorInfos 0

namespace QtCodeFile

/-- The constructor `QtCodeFile(filePath, parent)`: no content, the title
shown, the three mode buttons disabled, the reference count hidden. -/
def new (filePath : FilePath) : QtCodeFile :=
  { m_filePath := filePath
    m_snippetsRequested := false
    m_locationFile := none
    m_fileSnippet := none
    m_snippets := []
    m_modificationTime := 0
    visible := true
    titleVisible := true
    minimizeButtonEnabled := false
    snippetButtonEnabled := false
    maximizeButtonEnabled := false
    m_referenceCount := { visible := false, text := "" } }

/-- The setter `setModificationTime`. -/
def setModificationTime (modificationTime : Nat) (f : QtCodeFile) : QtCodeFile :=
  { f with m_modificationTime := modificationTime }

/-- The method `setMinimized`. -/
def setMinimized (f : QtCodeFile) : QtCodeFile :=
  { f with
    m_snippets := f.m_snippets.map QtCodeSnippet.hide
    m_fileSnippet := f.m_fileSnippet.map QtCodeSnippet.hide
    minimizeButtonEnabled := false
    snippetButtonEnabled :=
      if f.m_snippets.length ≠ 0 ∨ f.m_locationFile.isSome then true
      else f.snippetButtonEnabled
    maximizeButtonEnabled := true }

/-- The method `setSnippets`. -/
def setSnippets (f : QtCodeFile) : QtCodeFile :=
  { f with
    m_snippets := f.m_snippets.map QtCodeSnippet.show
    m_fileSnippet := f.m_fileSnippet.map QtCodeSnippet.hide
    minimizeButtonEnabled := true
    snippetButtonEnabled := false
    maximizeButtonEnabled := true }

/-- The method `setMaximized`. -/
def setMaximized (f : QtCodeFile) : QtCodeFile :=
  { f with
    m_snippets := f.m_snippets.map QtCodeSnippet.hide
    m_fileSnippet := f.m_fileSnippet.map QtCodeSnippet.show
    minimizeButtonEnabled := true
    snippetButtonEnabled :=
      if f.m_snippets.length ≠ 0 then true else f.snippetButtonEnabled
    maximizeButtonEnabled := false }

/-- The text that `updateRefCount` puts on the label when `refCount > 0`. -/
def refCountText (m_errorInfos : List ErrorInfo) (refCount : Int) (f : QtCodeFile) : String :=
  let label := if hasErrors m_errorInfos then "error" else "reference"
  let label := if refCount > 1 then label ++ "s" else label
  let fatalErrorCount := getFatalErrorCountForFile m_errorInfos f.m_filePath
  let label :=
    if fatalErrorCount > 0 then label ++ (" (" ++ toString fatalErrorCount ++ " fatal)")
    else label
  toString refCount ++ " " ++ label

/-- The method `updateRefCount`. -/
def updateRefCount (m_errorInfos : List ErrorInfo) (refCount : Int) (f : QtCodeFile) :
    QtCodeFile :=
  if refCount > 0 then
    { f with m_referenceCount := { visible := true, text := refCountText m_errorInfos refCount f } }
  else
    { f with m_referenceCount := { f.m_referenceCount with visible := false } }

/-- The `while` loop of `insertCodeSnippet` on the loop variables `i`,
`snippet` and `m_snippets`; the result is their value when the loop is left. -/
def insertLoop (i : Nat) (snippet : QtCodeSnippet) (m_snippets : List QtCodeSnippet) :
    Nat × QtCodeSnippet × List QtCodeSnippet :=
  if h : i < m_snippets.length then
    let start := snippet.startLineNumber
    let «end» := snippet.endLineNumber
    let s := m_snippets[i]
    if (s.endLineNumber + 1) % UINT_MOD < start then
      insertLoop (i + 1) snippet m_snippets
    else if s.startLineNumber > («end» + 1) % UINT_MOD then
      (i, snippet, m_snippets)
    else
      insertLoop i
        (if s.startLineNumber < start ∨ s.endLineNumber > «end» then
          QtCodeSnippet.merged snippet s
        else snippet)
        (m_snippets.eraseIdx i)
  else
    (i, snippet, m_snippets)
termination_by m_snippets.length - i
decreasing_by
  all_goals simp_wf
  · omega
  · rw [List.length_eraseIdx]
    simp [h]
    omega

/-- The method `addCodeSnippet`. -/
def addCodeSnippet (m_errorInfos : List ErrorInfo) (params : CodeSnippetParams)
    (f : QtCodeFile) : QtCodeFile :=
  let f := { f with m_locationFile := none }
  let snippet := QtCodeSnippet.ofParams params
  let f := if params.reduced then { f with titleVisible := false } else f
  if params.locationFile.isWholeCopy then
    let snippet := if f.m_snippets.length = 0 then snippet.setIsActiveFile true else snippet
    let f := { f with m_fileSnippet := some snippet }
    let f := setMaximized f
    if params.refCount ≠ -1 then updateRefCount m_errorInfos 0 f else f
  else
    let f := { f with m_snippets := f.m_snippets ++ [snippet] }
    let f := setSnippets f
    updateRefCount m_errorInfos params.refCount f

/-- The method `insertCodeSnippet`.  The first component is the snippet the
returned pointer refers to, in its state when the method returns. -/
def insertCodeSnippet (m_errorInfos : List ErrorInfo) (params : CodeSnippetParams)
    (f : QtCodeFile) : QtCodeSnippet × QtCodeFile :=
  let f := { f with m_locationFile := none }
  let r := insertLoop 0 (QtCodeSnippet.ofParams params) f.m_snippets
  let f := { f with m_snippets := List.insertIdx r.1 r.2.1 r.2.2 }
  let f := setSnippets f
  let f := updateRefCount m_errorInfos params.refCount f
  (r.2.1.show, f)

/-- The method `setLocationFile`. -/
def setLocationFile (m_errorInfos : List ErrorInfo)
    (locationFile : Option TokenLocationFile) (refCount : Int) (f : QtCodeFile) : QtCodeFile :=
  let f := { f with m_locationFile := locationFile }
  let f := setMinimized f
  updateRefCount m_errorInfos refCount f

/-- The slot `clickedMinimizeButton`: the message it dispatches. -/
def clickedMinimizeButton (m_errorInfos : List ErrorInfo) (f : QtCodeFile) :
    MessageChangeFileView :=
  { filePath := f.m_filePath
    state := FileState.FILE_MINIMIZED
    needsData := false
    showErrors := hasErrors m_errorInfos
    locationFile := none }

/-- The slot `clickedSnippetButton`: the message it dispatches. -/
def clickedSnippetButton (m_errorInfos : List ErrorInfo) (f : QtCodeFile) :
    MessageChangeFileView :=
  { filePath := f.m_filePath
    state := FileState.FILE_SNIPPETS
    needsData := f.m_locationFile.isSome
    showErrors := hasErrors m_errorInfos
    locationFile := f.m_locationFile }

/-- The slot `clickedMaximizeButton`: the message it dispatches. -/
def clickedMaximizeButton (m_errorInfos : List ErrorInfo) (f : QtCodeFile) :
    MessageChangeFileView :=
  { filePath := f.m_filePath
    state := FileState.FILE_MAXIMIZED
    needsData := f.m_fileSnippet.isNone
    showErrors := hasErrors m_errorInfos
    locationFile := none }

/-- The slot `clickedTitleBar`: the message it dispatches. -/
def clickedTitleBar (m_errorInfos : List ErrorInfo) (f : QtCodeFile) : MessageChangeFileView :=
  if f.minimizeButtonEnabled then
    clickedMinimizeButton m_errorInfos f
  else if f.snippetButtonEnabled then
    clickedSnippetButton m_errorInfos f
  else
    clickedMaximizeButton m_errorInfos f

end QtCodeFile

namespace QtCodeFileList

/-- The constructor `QtCodeFileList(parent)`. -/
def new : QtCodeFileList :=
  { m_files := []
    m_errorInfos := []
    m_activeTokenIds := []
    m_activeLocalSymbolIds := []
    m_focusedTokenIds := [] }

/-- The search loop of `getFile`: the position of the first file with the
given path, counted from `i`. -/
def findFile (filePath : FilePath) : List QtCodeFile → Nat → Option Nat
  | [], _ => none
  | filePtr :: rest, i =>
    if filePtr.m_filePath == filePath then some i else findFile filePath rest (i + 1)

/-- The method `getFile`.  The returned pointer is the position of the
file in `m_files` (`none` for a null pointer). -/
def getFile (filePath : FilePath) (l : QtCodeFileList) : Option Nat × QtCodeFileList :=
  match findFile filePath l.m_files 0 with
  | some i => (some i, l)
  | none =>
    let filePtr := { QtCodeFile.new filePath with visible := false }
    (some l.m_files.length, { l with m_files := l.m_files ++ [filePtr] })

/-- Apply a method of `QtCodeFile` through a pointer returned by `getFile`. -/
def onFile (i : Nat) (g : QtCodeFile → QtCodeFile) (l : QtCodeFileList) : QtCodeFileList :=
  { l with m_files := l.m_files.modify g i }

/-- The method `setFileMinimized`. -/
def setFileMinimized (path : FilePath) (l : QtCodeFileList) : QtCodeFileList :=
  match getFile path l with
  | (some file, l) => onFile file QtCodeFile.setMinimized l
  | (none, l) => l

/-- The method `setFileSnippets`. -/
def setFileSnippets (path : FilePath) (l : QtCodeFileList) : QtCodeFileList :=
  match getFile path l with
  | (some file, l) => onFile file QtCodeFile.setSnippets l
  | (none, l) => l

/-- The method `setFileMaximized`. -/
def setFileMaximized (path : FilePath) (l : QtCodeFileList) : QtCodeFileList :=
  match getFile path l with
  | (some file, l) => onFile file QtCodeFile.setMaximized l
  | (none, l) => l

/-- The method `addCodeSnippet` of the list.  The first component is the
emitted `shouldScrollToSnippet(snippet, line)`, if any.  A null pointer from
`getFile` would be dereferenced; the state is then left as it is. -/
def addCodeSnippet (params : CodeSnippetParams) (insert : Bool) (l : QtCodeFileList) :
    Option (QtCodeSnippet × Nat) × QtCodeFileList :=
  match getFile params.locationFile.filePath l with
  | (some file, l) =>
    if insert then
      let snippet := (l.m_files.get? file).map
        (fun f => (QtCodeFile.insertCodeSnippet l.m_errorInfos params f).1)
      let l := onFile file
        (fun f => (QtCodeFile.insertCodeSnippet l.m_errorInfos params f).2) l
      let l := onFile file (QtCodeFile.setModificationTime params.modificationTime) l
      (snippet.map (fun s => (s, params.startLineNumber)), l)
    else
      let l := onFile file (QtCodeFile.addCodeSnippet l.m_errorInfos params) l
      let l := onFile file (QtCodeFile.setModificationTime params.modificationTime) l
      (none, l)
  | (none, l) => (none, l)

/-- The method `addFile`. -/
def addFile (locationFile : TokenLocationFile) (refCount : Int) (modificationTime : Nat)
    (l : QtCodeFileList) : QtCodeFileList :=
  match getFile locationFile.filePath l with
  | (some file, l) =>
    let l := onFile file (QtCodeFile.setLocationFile l.m_errorInfos (some locationFile) refCount) l
    onFile file (QtCodeFile.setModificationTime modificationTime) l
  | (none, l) => l

/-- The method `clearCodeSnippets`. -/
def clearCodeSnippets (l : QtCodeFileList) : QtCodeFileList :=
  { l with m_files := [] }

/-- The setter `setErrorInfos`. -/
def setErrorInfos (errorInfos : List ErrorInfo) (l : QtCodeFileList) : QtCodeFileList :=
  { l with m_errorInfos := errorInfos }

end QtCodeFileList

/-! ## Specification vocabulary -/

/-- A snippet is a line range: it starts no later than it ends. -/
def WellFormed (x : QtCodeSnippet) : Prop := x.startLineNumber ≤ x.endLineNumber

/-- The end line is not the largest `uint`, so that `end + 1` is the
natural-number successor. -/
def NoWrap (x : QtCodeSnippet) : Prop := x.endLineNumber + 1 < UINT_MOD

/-- Every snippet starts at least 2 lines after the end of the one before it. -/
def NeighbourGap : List QtCodeSnippet → Prop
  | [] => True
  | [_] => True
  | a :: b :: rest => a.endLineNumber + 2 ≤ b.startLineNumber ∧ NeighbourGap (b :: rest)

/-- Decision procedure for `NeighbourGap`. -/
def decNeighbourGap : (l : List QtCodeSnippet) → Decidable (NeighbourGap l)
  | [] => isTrue trivial
  | [_] => isTrue trivial
  | a :: b :: rest =>
    @instDecidableAnd (a.endLineNumber + 2 ≤ b.startLineNumber) (NeighbourGap (b :: rest))
      inferInstance (decNeighbourGap (b :: rest))

instance instDecidableNeighbourGap (l : List QtCodeSnippet) : Decidable (NeighbourGap l) :=
  decNeighbourGap l

instance instDecidableWellFormed (x : QtCodeSnippet) : Decidable (WellFormed x) :=
  inferInstanceAs (Decidable (x.startLineNumber ≤ x.endLineNumber))

instance instDecidableNoWrap (x : QtCodeSnippet) : Decidable (NoWrap x) :=
  inferInstanceAs (Decidable (x.endLineNumber + 1 < UINT_MOD))

/-- The snippet-list invariant: every snippet is a line range, none ends at
the largest `uint`, and each starts at least 2 lines after the one before
it ends. -/
def SnippetListInv (l : List QtCodeSnippet) : Prop :=
  (∀ x ∈ l, WellFormed x) ∧ (∀ x ∈ l, NoWrap x) ∧ NeighbourGap l

instance instDecidableSnippetListInv (l : List QtCodeSnippet) : Decidable (SnippetListInv l) :=
  inferInstanceAs (Decidable (_ ∧ _ ∧ _))

/-- Sorted by start line, and every two snippets (not only neighbours) are
neither overlapping nor adjacent: the later one starts at least 2 lines
after the end of the earlier one. -/
def SortedApart (l : List QtCodeSnippet) : Prop :=
  l.Pairwise (fun a b => a.startLineNumber < b.startLineNumber ∧
    a.endLineNumber + 2 ≤ b.startLineNumber)


/-! ## The insertion loop as a scan of the part of `m_snippets` from `i` on -/

/-- The snippet the loop continues with after it met `s`, which neither
ends before the candidate nor starts after it. -/
def absorb (snippet s : QtCodeSnippet) : QtCodeSnippet :=
  if s.startLineNumber < snippet.startLineNumber ∨ s.endLineNumber > snippet.endLineNumber then
    QtCodeSnippet.merged snippet s
  else snippet

/-- The insertion loop run over the snippets from position `i` on: the
snippets it steps over, the final candidate, and the snippets left after
the position where the loop stops. -/
def scan (snippet : QtCodeSnippet) : List QtCodeSnippet →
    List QtCodeSnippet × QtCodeSnippet × List QtCodeSnippet
  | [] => ([], snippet, [])
  | s :: rest =>
    if (s.endLineNumber + 1) % UINT_MOD < snippet.startLineNumber then
      ((s :: (scan snippet rest).1), (scan snippet rest).2.1, (scan snippet rest).2.2)
    else if s.startLineNumber > (snippet.endLineNumber + 1) % UINT_MOD then
      ([], snippet, s :: rest)
    else
      scan (absorb snippet s) rest

/-- Snippets ending before line `s - 1`: the new range does not reach them. -/
def endsBefore (s : Nat) (x : QtCodeSnippet) : Bool := decide (x.endLineNumber + 1 < s)

/-- Snippets starting after line `e + 1`: the new range does not reach them. -/
def startsAfter (e : Nat) (x : QtCodeSnippet) : Bool := decide (x.startLineNumber > e + 1)

/-- Snippets the range `[s, e]` overlaps or is adjacent to. -/
def touches (s e : Nat) (x : QtCodeSnippet) : Bool :=
  decide (x.endLineNumber + 1 ≥ s ∧ x.startLineNumber ≤ e + 1)

/-- Smallest of `s` and the start lines of `t`. -/
def minStart (s : Nat) (t : List QtCodeSnippet) : Nat :=
  t.foldl (fun m x => min m x.startLineNumber) s

/-- Largest of `e` and the end lines of `t`. -/
def maxEnd (e : Nat) (t : List QtCodeSnippet) : Nat :=
  t.foldl (fun m x => max m x.endLineNumber) e

/-- Line `n` lies in one of the snippets. -/
def Covers (l : List QtCodeSnippet) (n : Nat) : Prop :=
  ∃ x ∈ l, x.startLineNumber ≤ n ∧ n ≤ x.endLineNumber


/-! ## Concrete inputs -/

/-- A shown snippet with the given line range. -/
def snippetAt (s e : Nat) : QtCodeSnippet :=
  { startLineNumber := s, endLineNumber := e, visible := true, isActiveFile := false }

/-- Parameters of a partial snippet of `a.cpp` with the given line range. -/
def paramsAt (s e : Nat) : CodeSnippetParams :=
  { locationFile := { filePath := "a.cpp", isWholeCopy := false, tokenIds := [] }
    startLineNumber := s
    endLineNumber := e
    refCount := 1
    reduced := false
    modificationTime := 0 }

/-- The file `a.cpp` in snippet mode with the given snippets. -/
def fileWith (l : List QtCodeSnippet) : QtCodeFile :=
  QtCodeFile.setSnippets { QtCodeFile.new "a.cpp" with m_snippets := l }


/-! ## Sequences of calls on one QtCodeFile -/

/-- A call that adds content to a `QtCodeFile`. -/
inductive SnippetCall where
  | add (params : CodeSnippetParams)
  | insert (params : CodeSnippetParams)
deriving DecidableEq, Repr

/-- The parameters of a call. -/
def SnippetCall.params : SnippetCall → CodeSnippetParams
  | SnippetCall.add p => p
  | SnippetCall.insert p => p

/-- The file after one call. -/
def applyCall (m_errorInfos : List ErrorInfo) (c : SnippetCall) (f : QtCodeFile) : QtCodeFile :=
  match c with
  | SnippetCall.add p => QtCodeFile.addCodeSnippet m_errorInfos p f
  | SnippetCall.insert p => (QtCodeFile.insertCodeSnippet m_errorInfos p f).2

/-- The file after a sequence of calls, first call first. -/
def applyCalls (m_errorInfos : List ErrorInfo) : List SnippetCall → QtCodeFile → QtCodeFile
  | [], f => f
  | c :: rest, f => applyCalls m_errorInfos rest (applyCall m_errorInfos c f)

/-- The range of a call is a line range that does not end at the largest
`uint`. -/
def RangeOk (c : SnippetCall) : Prop :=
  c.params.startLineNumber ≤ c.params.endLineNumber ∧ c.params.endLineNumber + 1 < UINT_MOD

instance instDecidableRangeOk (c : SnippetCall) : Decidable (RangeOk c) :=
  inferInstanceAs (Decidable (_ ∧ _))

/-- The snippet starts at least 2 lines after the end of the last snippet
of the list, if there is one. -/
def StartsAfterLast (l : List QtCodeSnippet) (start : Nat) : Prop :=
  match l.getLast? with
  | none => True
  | some x => x.endLineNumber + 2 ≤ start

instance instDecidableStartsAfterLast (l : List QtCodeSnippet) (start : Nat) :
    Decidable (StartsAfterLast l start) :=
  match h : l.getLast? with
  | none => isTrue (by unfold StartsAfterLast; rw [h]; trivial)
  | some x =>
    if hx : x.endLineNumber + 2 ≤ start then isTrue (by unfold StartsAfterLast; rw [h]; exact hx)
    else isFalse (by unfold StartsAfterLast; rw [h]; exact hx)

/-- A call is in order for a file: its range is a line range, and an
appended partial snippet starts at least 2 lines after the last snippet. -/
def CallInOrder (c : SnippetCall) (f : QtCodeFile) : Prop :=
  RangeOk c ∧
  match c with
  | SnippetCall.add p =>
    p.locationFile.isWholeCopy = true ∨ StartsAfterLast f.m_snippets p.startLineNumber
  | SnippetCall.insert _ => True

instance instDecidableCallInOrder (c : SnippetCall) (f : QtCodeFile) :
    Decidable (CallInOrder c f) :=
  match c with
  | SnippetCall.add _ => inferInstanceAs (Decidable (_ ∧ (_ ∨ _)))
  | SnippetCall.insert _ => inferInstanceAs (Decidable (_ ∧ True))

/-- Every call of the sequence is in order for the file it is applied to. -/
def CallsInOrder (m_errorInfos : List ErrorInfo) : List SnippetCall → QtCodeFile → Prop
  | [], _ => True
  | c :: rest, f => CallInOrder c f ∧ CallsInOrder m_errorInfos rest (applyCall m_errorInfos c f)

/-- Decision procedure for `CallsInOrder`. -/
def decCallsInOrder (m_errorInfos : List ErrorInfo) :
    (cs : List SnippetCall) → (f : QtCodeFile) → Decidable (CallsInOrder m_errorInfos cs f)
  | [], _ => isTrue trivial
  | c :: rest, f =>
    @instDecidableAnd (CallInOrder c f)
      (CallsInOrder m_errorInfos rest (applyCall m_errorInfos c f))
      inferInstance (decCallsInOrder m_errorInfos rest (applyCall m_errorInfos c f))

instance instDecidableCallsInOrder (m_errorInfos : List ErrorInfo) (cs : List SnippetCall)
    (f : QtCodeFile) : Decidable (CallsInOrder m_errorInfos cs f) :=
  decCallsInOrder m_errorInfos cs f


/-! ## States of a QtCodeFile reachable through its public operations -/

/-- The states a `QtCodeFile` can be in: a newly created file, and what
the public operations make of a reachable state. -/
inductive Reachable : QtCodeFile → Prop where
  | created (filePath : FilePath) : Reachable (QtCodeFile.new filePath)
  | addCodeSnippet (m_errorInfos : List ErrorInfo) (params : CodeSnippetParams)
      (f : QtCodeFile) :
      Reachable f → Reachable (QtCodeFile.addCodeSnippet m_errorInfos params f)
  | insertCodeSnippet (m_errorInfos : List ErrorInfo) (params : CodeSnippetParams)
      (f : QtCodeFile) :
      Reachable f → Reachable (QtCodeFile.insertCodeSnippet m_errorInfos params f).2
  | setLocationFile (m_errorInfos : List ErrorInfo) (locationFile : Option TokenLocationFile)
      (refCount : Int) (f : QtCodeFile) :
      Reachable f → Reachable (QtCodeFile.setLocationFile m_errorInfos locationFile refCount f)
  | setMinimized (f : QtCodeFile) : Reachable f → Reachable (QtCodeFile.setMinimized f)
  | setSnippets (f : QtCodeFile) : Reachable f → Reachable (QtCodeFile.setSnippets f)
  | setMaximized (f : QtCodeFile) : Reachable f → Reachable (QtCodeFile.setMaximized f)

/-- The location file of `b.cpp`, not a whole copy. -/
def locationFileB : TokenLocationFile :=
  { filePath := "b.cpp", isWholeCopy := false, tokenIds := [7] }

/-- A list that displays the collapsed file `b.cpp`. -/
def listWithB : QtCodeFileList :=
  QtCodeFileList.addFile locationFileB 2 0 QtCodeFileList.new

/-- One non-fatal error entry, of the file `b.cpp`. -/
def errorsOfB : List ErrorInfo :=
  [{ message := "unknown type name", filePath := "b.cpp", isFatal := false }]

/-- The file after inserting the snippets of a list one after the other,
first element first. -/
def insertAll (m_errorInfos : List ErrorInfo) : List CodeSnippetParams → QtCodeFile → QtCodeFile
  | [], f => f
  | p :: ps, f => insertAll m_errorInfos ps (QtCodeFile.insertCodeSnippet m_errorInfos p f).2

/-- The parameters give a line range that does not end at the largest `uint`. -/
def ParamsOk (p : CodeSnippetParams) : Prop :=
  p.startLineNumber ≤ p.endLineNumber ∧ p.endLineNumber + 1 < UINT_MOD

instance instDecidableParamsOk (p : CodeSnippetParams) : Decidable (ParamsOk p) :=
  inferInstanceAs (Decidable (_ ∧ _))

/-! ## The first active snippet -/

/-- The method `QtCodeFile::findFirstActiveSnippet`.  `isActive` stands for
`QtCodeSnippet::isActive`, which is not part of the two source files.  The
result is `none` when the method dereferences the null `m_fileSnippet`;
otherwise it is the returned pointer (`some none` for `nullptr`). -/
def QtCodeFile.findFirstActiveSnippet (isActive : QtCodeSnippet → Bool) (f : QtCodeFile) :
    Option (Option QtCodeSnippet) :=
  if f.m_locationFile.isSome then
    some none
  else if f.maximizeButtonEnabled then
    some (f.m_snippets.find? isActive)
  else
    match f.m_fileSnippet with
    | none => none
    | some m_fileSnippet => if isActive m_fileSnippet then some (some m_fileSnippet) else some none

/-- The loop of `QtCodeFileList::getFirstActiveSnippet` over `m_files`, with
the result convention of `findFirstActiveSnippet`. -/
def QtCodeFileList.firstActiveSnippetLoop (isActive : QtCodeSnippet → Bool) :
    List QtCodeFile → Option (Option QtCodeSnippet)
  | [] => some none
  | file :: rest =>
    match QtCodeFile.findFirstActiveSnippet isActive file with
    | none => none
    | some (some snippet) => some (some snippet)
    | some none => QtCodeFileList.firstActiveSnippetLoop isActive rest

/-- The method `QtCodeFileList::getFirstActiveSnippet`. -/
def QtCodeFileList.getFirstActiveSnippet (isActive : QtCodeSnippet → Bool)
    (l : QtCodeFileList) : Option (Option QtCodeSnippet) :=
  QtCodeFileList.firstActiveSnippetLoop isActive l.m_files

/-- The states a `QtCodeFileList` can be in: a newly created list, and what
`addCodeSnippet`, `addFile`, `setFileMinimized`, `setFileSnippets` and
`setFileMaximized` make of a reachable state. -/
inductive ListReachable : QtCodeFileList → Prop where
  | created : ListReachable QtCodeFileList.new
  | addCodeSnippet (params : CodeSnippetParams) (insert : Bool) (l : QtCodeFileList) :
      ListReachable l → ListReachable (QtCodeFileList.addCodeSnippet params insert l).2
  | addFile (locationFile : TokenLocationFile) (refCount : Int) (modificationTime : Nat)
      (l : QtCodeFileList) :
      ListReachable l → ListReachable (QtCodeFileList.addFile locationFile refCount
        modificationTime l)
  | setFileMinimized (path : FilePath) (l : QtCodeFileList) :
      ListReachable l → ListReachable (QtCodeFileList.setFileMinimized path l)
  | setFileSnippets (path : FilePath) (l : QtCodeFileList) :
      ListReachable l → ListReachable (QtCodeFileList.setFileSnippets path l)
  | setFileMaximized (path : FilePath) (l : QtCodeFileList) :
      ListReachable l → ListReachable (QtCodeFileList.setFileMaximized path l)

/-- Every file without a location file whose maximize control is disabled
has a full-file snippet. -/
def FileSnippetPresent (f : QtCodeFile) : Prop :=
  f.m_locationFile = none → f.maximizeButtonEnabled = false → f.m_fileSnippet.isSome = true

instance instDecidableFileSnippetPresent (f : QtCodeFile) : Decidable (FileSnippetPresent f) :=
  inferInstanceAs (Decidable (_ → _ → _))

/-- The list after `addCodeSnippet` (append path) of the partial snippet
`[10, 20]` of `a.cpp` and `setFileMaximized` of `a.cpp`. -/
def listMaximizedA : QtCodeFileList :=
  QtCodeFileList.setFileMaximized "a.cpp"
    (QtCodeFileList.addCodeSnippet (paramsAt 10 20) false QtCodeFileList.new).2

/-- The states of a `QtCodeFileList` reachable when `setFileMaximized` is
only called for a path that some file has and whose files all have a
full-file snippet. -/
inductive MaximizeGuardedReachable : QtCodeFileList → Prop where
  | created : MaximizeGuardedReachable QtCodeFileList.new
  | addCodeSnippet (params : CodeSnippetParams) (insert : Bool) (l : QtCodeFileList) :
      MaximizeGuardedReachable l →
      MaximizeGuardedReachable (QtCodeFileList.addCodeSnippet params insert l).2
  | addFile (locationFile : TokenLocationFile) (refCount : Int) (modificationTime : Nat)
      (l : QtCodeFileList) :
      MaximizeGuardedReachable l →
      MaximizeGuardedReachable (QtCodeFileList.addFile locationFile refCount modificationTime l)
  | setFileMinimized (path : FilePath) (l : QtCodeFileList) :
      MaximizeGuardedReachable l → MaximizeGuardedReachable (QtCodeFileList.setFileMinimized path l)
  | setFileSnippets (path : FilePath) (l : QtCodeFileList) :
      MaximizeGuardedReachable l → MaximizeGuardedReachable (QtCodeFileList.setFileSnippets path l)
  | setFileMaximized (path : FilePath) (l : QtCodeFileList) :
      MaximizeGuardedReachable l →
      (∃ f ∈ l.m_files, f.m_filePath = path) →
      (∀ f ∈ l.m_files, f.m_filePath = path → f.m_fileSnippet.isSome = true) →
      MaximizeGuardedReachable (QtCodeFileList.setFileMaximized path l)

/-! ## The insertion loop and the scan agree -/

theorem insertLoop_append (suffix : List QtCodeSnippet) :
    ∀ (pre : List QtCodeSnippet) (c : QtCodeSnippet),
      QtCodeFile.insertLoop pre.length c (pre ++ suffix) =
        (pre.length + (scan c suffix).1.length, (scan c suffix).2.1,
          pre ++ (scan c suffix).1 ++ (scan c suffix).2.2) := by
  induction suffix with
  | nil =>
    intro pre c
    rw [QtCodeFile.insertLoop]
    simp [scan]
  | cons x rest ih =>
    intro pre c
    rw [QtCodeFile.insertLoop]
    have hlt : pre.length < (pre ++ x :: rest).length := by simp
    have hget : (pre ++ x :: rest)[pre.length] = x := by
      rw [List.getElem_append_right (le_refl _)]
      simp
    simp only [hlt, dite_true, hget]
    by_cases h1 : (x.endLineNumber + 1) % UINT_MOD < c.startLineNumber
    · have e1 : pre ++ x :: rest = (pre ++ [x]) ++ rest := by simp
      have e2 : pre.length + 1 = (pre ++ [x]).length := by simp
      simp only [h1, if_true, scan]
      rw [e1, e2, ih (pre ++ [x]) c]
      simp
      omega
    · by_cases h2 : x.startLineNumber > (c.endLineNumber + 1) % UINT_MOD
      · simp [h1, h2, scan]
      · have e3 : (pre ++ x :: rest).eraseIdx pre.length = pre ++ rest := by
          rw [List.eraseIdx_append_of_length_le (le_refl _)]
          simp
        simp only [h1, h2, if_false, scan, e3]
        exact ih pre (absorb c x)

theorem insertLoop_zero (c : QtCodeSnippet) (l : List QtCodeSnippet) :
    QtCodeFile.insertLoop 0 c l =
      ((scan c l).1.length, (scan c l).2.1, (scan c l).1 ++ (scan c l).2.2) := by
  have h := insertLoop_append l [] c
  simpa using h

theorem insertIdx_length_append (a : QtCodeSnippet) (k r : List QtCodeSnippet) :
    List.insertIdx k.length a (k ++ r) = k ++ a :: r := by
  induction k with
  | nil => simp
  | cons x k ih => simp [List.insertIdx_succ_cons, ih]


/-! ## Facts about the vocabulary -/

theorem neighbourGap_pairwise (l : List QtCodeSnippet) (hwf : ∀ x ∈ l, WellFormed x)
    (h : NeighbourGap l) :
    l.Pairwise (fun a b => a.endLineNumber + 2 ≤ b.startLineNumber) := by
  induction l with
  | nil => exact List.Pairwise.nil
  | cons a t ih =>
    have hwt : ∀ x ∈ t, WellFormed x := fun x hx => hwf x (List.mem_cons_of_mem _ hx)
    cases t with
    | nil => simp
    | cons b r =>
      obtain ⟨hab, hrest⟩ := h
      have hp := ih hwt hrest
      refine List.pairwise_cons.mpr ⟨?_, hp⟩
      intro y hy
      rcases List.mem_cons.mp hy with rfl | hy
      · exact hab
      · have h1 := (List.pairwise_cons.mp hp).1 y hy
        have h2 : WellFormed b := hwt b (List.mem_cons_self _ _)
        unfold WellFormed at h2
        omega

theorem pairwise_neighbourGap (l : List QtCodeSnippet)
    (h : l.Pairwise (fun a b => a.endLineNumber + 2 ≤ b.startLineNumber)) :
    NeighbourGap l := by
  induction l with
  | nil => trivial
  | cons a t ih =>
    cases t with
    | nil => trivial
    | cons b r =>
      obtain ⟨h1, h2⟩ := List.pairwise_cons.mp h
      exact ⟨h1 b (List.mem_cons_self _ _), ih h2⟩

theorem minStart_le (t : List QtCodeSnippet) : ∀ s, minStart s t ≤ s := by
  induction t with
  | nil => intro s; simp [minStart]
  | cons x t ih =>
    intro s
    have h := ih (min s x.startLineNumber)
    simp only [minStart, List.foldl_cons] at h ⊢
    exact le_trans h (Nat.min_le_left _ _)

theorem le_minStart (t : List QtCodeSnippet) :
    ∀ s b, b ≤ s → (∀ x ∈ t, b ≤ x.startLineNumber) → b ≤ minStart s t := by
  induction t with
  | nil => intro s b hs _; simpa [minStart] using hs
  | cons x t ih =>
    intro s b hs hx
    have h := ih (min s x.startLineNumber) b
      (le_min hs (hx x (List.mem_cons_self _ _)))
      (fun y hy => hx y (List.mem_cons_of_mem _ hy))
    simpa only [minStart, List.foldl_cons] using h

theorem le_maxEnd (t : List QtCodeSnippet) : ∀ e, e ≤ maxEnd e t := by
  induction t with
  | nil => intro e; simp [maxEnd]
  | cons x t ih =>
    intro e
    have h := ih (max e x.endLineNumber)
    simp only [maxEnd, List.foldl_cons] at h ⊢
    exact le_trans (Nat.le_max_left _ _) h

theorem maxEnd_le (t : List QtCodeSnippet) :
    ∀ e b, e ≤ b → (∀ x ∈ t, x.endLineNumber ≤ b) → maxEnd e t ≤ b := by
  induction t with
  | nil => intro e b he _; simpa [maxEnd] using he
  | cons x t ih =>
    intro e b he hx
    have h := ih (max e x.endLineNumber) b
      (max_le he (hx x (List.mem_cons_self _ _)))
      (fun y hy => hx y (List.mem_cons_of_mem _ hy))
    simpa only [minStart, maxEnd, List.foldl_cons] using h

theorem absorb_start (c x : QtCodeSnippet) :
    (absorb c x).startLineNumber = min c.startLineNumber x.startLineNumber := by
  unfold absorb
  split_ifs with h
  · rfl
  · have : c.startLineNumber ≤ x.startLineNumber := by omega
    simp [Nat.min_eq_left this]

theorem absorb_end (c x : QtCodeSnippet) :
    (absorb c x).endLineNumber = max c.endLineNumber x.endLineNumber := by
  unfold absorb
  split_ifs with h
  · rfl
  · have : x.endLineNumber ≤ c.endLineNumber := by omega
    simp [Nat.max_eq_left this]

/-- What the scan returns on a list that satisfies the invariant. -/
theorem scan_spec (l : List QtCodeSnippet) :
    ∀ c : QtCodeSnippet, (∀ x ∈ l, WellFormed x) → (∀ x ∈ l, NoWrap x) →
      l.Pairwise (fun a b => a.endLineNumber + 2 ≤ b.startLineNumber) →
      WellFormed c → NoWrap c →
      (scan c l).1 = l.filter (endsBefore c.startLineNumber) ∧
      (scan c l).2.2 = l.filter (startsAfter c.endLineNumber) ∧
      (scan c l).2.1.startLineNumber =
        minStart c.startLineNumber (l.filter (touches c.startLineNumber c.endLineNumber)) ∧
      (scan c l).2.1.endLineNumber =
        maxEnd c.endLineNumber (l.filter (touches c.startLineNumber c.endLineNumber)) := by
  induction l with
  | nil => intro c _ _ _ _ _; simp [scan, minStart, maxEnd]
  | cons x rest ih =>
    intro c hwf hnw hpw hc hcn
    have hx : WellFormed x := hwf x (List.mem_cons_self _ _)
    have hxn : NoWrap x := hnw x (List.mem_cons_self _ _)
    obtain ⟨hxr, hpr⟩ := List.pairwise_cons.mp hpw
    have hwf' : ∀ y ∈ rest, WellFormed y := fun y hy => hwf y (List.mem_cons_of_mem _ hy)
    have hnw' : ∀ y ∈ rest, NoWrap y := fun y hy => hnw y (List.mem_cons_of_mem _ hy)
    have hry : ∀ y ∈ rest, x.endLineNumber + 2 ≤ y.startLineNumber ∧
        y.startLineNumber ≤ y.endLineNumber := fun y hy => ⟨hxr y hy, hwf' y hy⟩
    unfold WellFormed at hx hc
    unfold NoWrap at hxn hcn
    have m1 : (x.endLineNumber + 1) % UINT_MOD = x.endLineNumber + 1 := Nat.mod_eq_of_lt hxn
    have m2 : (c.endLineNumber + 1) % UINT_MOD = c.endLineNumber + 1 := Nat.mod_eq_of_lt hcn
    by_cases h1 : x.endLineNumber + 1 < c.startLineNumber
    · obtain ⟨i1, i2, i3, i4⟩ := ih c hwf' hnw' hpr hc hcn
      have f1 : endsBefore c.startLineNumber x = true := by simp [endsBefore, h1]
      have f2 : startsAfter c.endLineNumber x = false := by
        simp only [startsAfter, decide_eq_false_iff_not]; omega
      have f3 : touches c.startLineNumber c.endLineNumber x = false := by
        simp only [touches, decide_eq_false_iff_not]; omega
      simp only [scan, m1, h1, if_true, List.filter_cons, f1, f2, f3]
      exact ⟨by rw [i1], i2, i3, i4⟩
    · by_cases h2 : x.startLineNumber > c.endLineNumber + 1
      · simp only [scan, m1, m2, h1, h2, if_false, if_true]
        have g1 : List.filter (endsBefore c.startLineNumber) (x :: rest) = [] := by
          rw [List.filter_eq_nil_iff]
          intro y hy
          simp only [endsBefore, decide_eq_true_eq]
          rcases List.mem_cons.mp hy with rfl | hy
          · exact h1
          · have := hry y hy; omega
        have g2 : List.filter (startsAfter c.endLineNumber) (x :: rest) = x :: rest := by
          rw [List.filter_eq_self]
          intro y hy
          simp only [startsAfter, decide_eq_true_eq]
          rcases List.mem_cons.mp hy with rfl | hy
          · exact h2
          · have := hry y hy; omega
        have g3 : List.filter (touches c.startLineNumber c.endLineNumber) (x :: rest) = [] := by
          rw [List.filter_eq_nil_iff]
          intro y hy
          simp only [touches, decide_eq_true_eq]
          rcases List.mem_cons.mp hy with rfl | hy
          · omega
          · have := hry y hy; omega
        rw [g1, g2, g3]
        simp [minStart, maxEnd]
      · have hs := absorb_start c x
        have he := absorb_end c x
        have hc' : WellFormed (absorb c x) := by
          unfold WellFormed; rw [hs, he]; omega
        have hcn' : NoWrap (absorb c x) := by
          unfold NoWrap; rw [he]; omega
        obtain ⟨i1, i2, i3, i4⟩ := ih (absorb c x) hwf' hnw' hpr hc' hcn'
        have f1 : endsBefore c.startLineNumber x = false := by
          simp only [endsBefore, decide_eq_false_iff_not]; exact h1
        have f2 : startsAfter c.endLineNumber x = false := by
          simp only [startsAfter, decide_eq_false_iff_not]; exact h2
        have f3 : touches c.startLineNumber c.endLineNumber x = true := by
          simp only [touches, decide_eq_true_eq]; omega
        have k1 : List.filter (endsBefore (absorb c x).startLineNumber) rest =
            List.filter (endsBefore c.startLineNumber) rest := by
          apply List.filter_congr
          intro y hy
          have := hry y hy
          simp only [endsBefore, hs, decide_eq_decide]
          omega
        have k2 : List.filter (startsAfter (absorb c x).endLineNumber) rest =
            List.filter (startsAfter c.endLineNumber) rest := by
          apply List.filter_congr
          intro y hy
          have := hry y hy
          simp only [startsAfter, he, decide_eq_decide]
          omega
        have k3 : List.filter
            (touches (absorb c x).startLineNumber (absorb c x).endLineNumber) rest =
            List.filter (touches c.startLineNumber c.endLineNumber) rest := by
          apply List.filter_congr
          intro y hy
          have := hry y hy
          simp only [touches, hs, he, decide_eq_decide]
          omega
        simp only [scan, m1, m2, h1, h2, if_false, List.filter_cons, f1, f2, f3, if_true]
        rw [i1, i2, i3, i4, k1, k2, k3, hs, he]
        simp [minStart, maxEnd]


/-- Two different snippets of a list with pairwise gaps: one of them lies
at least 2 lines after the other. -/
theorem gap_either (l : List QtCodeSnippet)
    (hpw : l.Pairwise (fun a b => a.endLineNumber + 2 ≤ b.startLineNumber))
    (a b : QtCodeSnippet) (ha : a ∈ l) (hb : b ∈ l) (hne : a ≠ b) :
    a.endLineNumber + 2 ≤ b.startLineNumber ∨ b.endLineNumber + 2 ≤ a.startLineNumber := by
  have hs : l.Pairwise (fun a b => a.endLineNumber + 2 ≤ b.startLineNumber ∨
      b.endLineNumber + 2 ≤ a.startLineNumber) :=
    hpw.imp (fun h => Or.inl h)
  have hsym : Symmetric (fun a b : QtCodeSnippet =>
      a.endLineNumber + 2 ≤ b.startLineNumber ∨ b.endLineNumber + 2 ≤ a.startLineNumber) :=
    fun _ _ h => h.symm
  exact hs.forall hsym ha hb hne

/-- The list "kept-before, merged, kept-after" satisfies the invariant. -/
theorem merge_good (l : List QtCodeSnippet) (s e : Nat) (mid : QtCodeSnippet)
    (hwf : ∀ x ∈ l, WellFormed x) (hnw : ∀ x ∈ l, NoWrap x)
    (hpw : l.Pairwise (fun a b => a.endLineNumber + 2 ≤ b.startLineNumber))
    (hse : s ≤ e) (he : e + 1 < UINT_MOD)
    (hms : mid.startLineNumber = minStart s (l.filter (touches s e)))
    (hme : mid.endLineNumber = maxEnd e (l.filter (touches s e))) :
    (∀ x ∈ l.filter (endsBefore s) ++ mid :: l.filter (startsAfter e), WellFormed x) ∧
    (∀ x ∈ l.filter (endsBefore s) ++ mid :: l.filter (startsAfter e), NoWrap x) ∧
    (l.filter (endsBefore s) ++ mid :: l.filter (startsAfter e)).Pairwise
      (fun a b => a.endLineNumber + 2 ≤ b.startLineNumber) := by
  have hmid_wf : WellFormed mid := by
    unfold WellFormed
    rw [hms, hme]
    exact le_trans (minStart_le _ _) (le_trans hse (le_maxEnd _ _))
  have hmid_nw : NoWrap mid := by
    unfold NoWrap
    rw [hme]
    have : maxEnd e (l.filter (touches s e)) ≤ UINT_MOD - 2 := by
      apply maxEnd_le
      · omega
      · intro x hx
        have := hnw x (List.mem_of_mem_filter hx)
        unfold NoWrap at this
        omega
    omega
  refine ⟨?_, ?_, ?_⟩
  · intro x hx
    rcases List.mem_append.mp hx with h | h
    · exact hwf x (List.mem_of_mem_filter h)
    · rcases List.mem_cons.mp h with rfl | h
      · exact hmid_wf
      · exact hwf x (List.mem_of_mem_filter h)
  · intro x hx
    rcases List.mem_append.mp hx with h | h
    · exact hnw x (List.mem_of_mem_filter h)
    · rcases List.mem_cons.mp h with rfl | h
      · exact hmid_nw
      · exact hnw x (List.mem_of_mem_filter h)
  · rw [List.pairwise_append, List.pairwise_cons]
    refine ⟨hpw.filter _, ⟨?_, hpw.filter _⟩, ?_⟩
    · intro b hb
      have hbl : b ∈ l := List.mem_of_mem_filter hb
      have hb2 : b.startLineNumber > e + 1 := by
        have := (List.mem_filter.mp hb).2
        simpa [startsAfter] using this
      have hbw := hwf b hbl
      unfold WellFormed at hbw
      rw [hme]
      have : maxEnd e (l.filter (touches s e)) ≤ b.startLineNumber - 2 := by
        apply maxEnd_le
        · omega
        · intro t ht
          have htl : t ∈ l := List.mem_of_mem_filter ht
          have ht2 : t.endLineNumber + 1 ≥ s ∧ t.startLineNumber ≤ e + 1 := by
            have := (List.mem_filter.mp ht).2
            simpa [touches] using this
          have htw := hwf t htl
          unfold WellFormed at htw
          by_cases hne : t = b
          · subst hne; omega
          · rcases gap_either l hpw t b htl hbl hne with h | h <;> omega
      omega
    · intro a ha b hb
      have hal : a ∈ l := List.mem_of_mem_filter ha
      have ha2 : a.endLineNumber + 1 < s := by
        have := (List.mem_filter.mp ha).2
        simpa [endsBefore] using this
      have haw := hwf a hal
      unfold WellFormed at haw
      rcases List.mem_cons.mp hb with rfl | hb
      · rw [hms]
        apply le_minStart
        · omega
        · intro t ht
          have htl : t ∈ l := List.mem_of_mem_filter ht
          have ht2 : t.endLineNumber + 1 ≥ s ∧ t.startLineNumber ≤ e + 1 := by
            have := (List.mem_filter.mp ht).2
            simpa [touches] using this
          have htw := hwf t htl
          unfold WellFormed at htw
          by_cases hne : a = t
          · subst hne; omega
          · rcases gap_either l hpw a t hal htl hne with h | h <;> omega
      · have hb2 : b.startLineNumber > e + 1 := by
          have := (List.mem_filter.mp hb).2
          simpa [startsAfter] using this
        omega

/-- Showing every snippet keeps the line ranges. -/
theorem map_show_range (l : List QtCodeSnippet) :
    (l.map QtCodeSnippet.show).map QtCodeSnippet.range = l.map QtCodeSnippet.range := by
  simp [List.map_map, Function.comp_def, QtCodeSnippet.range, QtCodeSnippet.show]

/-- The components of the invariant only look at line ranges. -/
theorem inv_of_map_range_eq (l l' : List QtCodeSnippet)
    (h : l'.map QtCodeSnippet.range = l.map QtCodeSnippet.range)
    (hwf : ∀ x ∈ l, WellFormed x) (hnw : ∀ x ∈ l, NoWrap x)
    (hpw : l.Pairwise (fun a b => a.endLineNumber + 2 ≤ b.startLineNumber)) :
    (∀ x ∈ l', WellFormed x) ∧ (∀ x ∈ l', NoWrap x) ∧
    l'.Pairwise (fun a b => a.endLineNumber + 2 ≤ b.startLineNumber) := by
  induction l' generalizing l with
  | nil => simp
  | cons y t' ih =>
    cases l with
    | nil => simp at h
    | cons x t =>
      simp only [List.map_cons, List.cons.injEq] at h
      obtain ⟨hxy, ht⟩ := h
      have hs : y.startLineNumber = x.startLineNumber := congrArg Prod.fst hxy
      have he : y.endLineNumber = x.endLineNumber := congrArg Prod.snd hxy
      obtain ⟨hxt, hpt⟩ := List.pairwise_cons.mp hpw
      obtain ⟨i1, i2, i3⟩ := ih t ht (fun z hz => hwf z (List.mem_cons_of_mem _ hz))
        (fun z hz => hnw z (List.mem_cons_of_mem _ hz)) hpt
      have hxw := hwf x (List.mem_cons_self _ _)
      have hxn := hnw x (List.mem_cons_self _ _)
      unfold WellFormed NoWrap at *
      refine ⟨?_, ?_, ?_⟩
      · intro z hz
        rcases List.mem_cons.mp hz with rfl | hz
        · omega
        · exact i1 z hz
      · intro z hz
        rcases List.mem_cons.mp hz with rfl | hz
        · omega
        · exact i2 z hz
      · refine List.pairwise_cons.mpr ⟨?_, i3⟩
        intro z hz
        have hz' : z.range ∈ t'.map QtCodeSnippet.range := List.mem_map_of_mem _ hz
        rw [ht] at hz'
        obtain ⟨w, hw, hwz⟩ := List.mem_map.mp hz'
        have h1 : w.startLineNumber = z.startLineNumber := congrArg Prod.fst hwz
        have := hxt w hw
        omega

/-- The snippet list after `insertCodeSnippet`, in terms of the scan. -/
theorem insertCodeSnippet_snippets (m_errorInfos : List ErrorInfo) (params : CodeSnippetParams)
    (f : QtCodeFile) :
    (QtCodeFile.insertCodeSnippet m_errorInfos params f).2.m_snippets =
      ((scan (QtCodeSnippet.ofParams params) f.m_snippets).1 ++
        (scan (QtCodeSnippet.ofParams params) f.m_snippets).2.1 ::
        (scan (QtCodeSnippet.ofParams params) f.m_snippets).2.2).map QtCodeSnippet.show ∧
    (QtCodeFile.insertCodeSnippet m_errorInfos params f).1 =
      (scan (QtCodeSnippet.ofParams params) f.m_snippets).2.1.show := by
  unfold QtCodeFile.insertCodeSnippet
  simp only [insertLoop_zero, insertIdx_length_append]
  constructor
  · unfold QtCodeFile.updateRefCount QtCodeFile.setSnippets
    split_ifs <;> rfl
  · trivial


/-! ## insertCodeSnippet: the invariant and the reference merge -/

/-- Pairwise gaps between line ranges give a list sorted by start line. -/
theorem sortedApart_of_gaps (l : List QtCodeSnippet) (hwf : ∀ x ∈ l, WellFormed x)
    (hpw : l.Pairwise (fun a b => a.endLineNumber + 2 ≤ b.startLineNumber)) :
    SortedApart l := by
  unfold SortedApart
  refine hpw.imp_of_mem ?_
  intro a b ha _ hab
  have := hwf a ha
  unfold WellFormed at this
  omega

/-- The invariant, as used in the proofs, after `insertCodeSnippet`. -/
theorem insertCodeSnippet_good (m_errorInfos : List ErrorInfo) (params : CodeSnippetParams)
    (f : QtCodeFile) (hinv : SnippetListInv f.m_snippets)
    (hse : params.startLineNumber ≤ params.endLineNumber)
    (hnw : params.endLineNumber + 1 < UINT_MOD) :
    (∀ x ∈ (QtCodeFile.insertCodeSnippet m_errorInfos params f).2.m_snippets, WellFormed x) ∧
    (∀ x ∈ (QtCodeFile.insertCodeSnippet m_errorInfos params f).2.m_snippets, NoWrap x) ∧
    (QtCodeFile.insertCodeSnippet m_errorInfos params f).2.m_snippets.Pairwise
      (fun a b => a.endLineNumber + 2 ≤ b.startLineNumber) := by
  obtain ⟨hwf, hnwl, hgap⟩ := hinv
  have hpw := neighbourGap_pairwise _ hwf hgap
  obtain ⟨i1, i2, i3, i4⟩ := scan_spec f.m_snippets (QtCodeSnippet.ofParams params)
    hwf hnwl hpw hse hnw
  have hg := merge_good f.m_snippets params.startLineNumber params.endLineNumber
    (scan (QtCodeSnippet.ofParams params) f.m_snippets).2.1 hwf hnwl hpw hse hnw i3 i4
  obtain ⟨g1, g2, g3⟩ := hg
  have hs := (insertCodeSnippet_snippets m_errorInfos params f).1
  rw [i1, i2] at hs
  exact inv_of_map_range_eq _ _ (by rw [hs, map_show_range]; rfl) g1 g2 g3

/-- C1: `insertCodeSnippet` preserves the snippet-list invariant. If the
snippets of the file are line ranges (none ending at the largest `uint`),
each starting at least 2 lines after the end of the one before it, and the
new range has start <= end, then the snippets after the call again satisfy
this, and they are sorted by start line with every two of them neither
overlapping nor adjacent. -/
theorem insertCodeSnippet_preserves_invariant (m_errorInfos : List ErrorInfo)
    (params : CodeSnippetParams) (f : QtCodeFile)
    (hinv : SnippetListInv f.m_snippets)
    (hse : params.startLineNumber ≤ params.endLineNumber)
    (hnw : params.endLineNumber + 1 < UINT_MOD) :
    SnippetListInv (QtCodeFile.insertCodeSnippet m_errorInfos params f).2.m_snippets ∧
    SortedApart (QtCodeFile.insertCodeSnippet m_errorInfos params f).2.m_snippets := by
  obtain ⟨g1, g2, g3⟩ := insertCodeSnippet_good m_errorInfos params f hinv hse hnw
  exact ⟨⟨g1, g2, pairwise_neighbourGap _ g3⟩, sortedApart_of_gaps _ g1 g3⟩

/-- C2, amended: `insertCodeSnippet` equals the reference interval merge
when no end line is the largest `uint` 4294967295. On a list of line ranges
(start <= end), each starting at least 2 lines after the end of the one
before it and none ending at 4294967295, and for a range `[s, e]` with
`s <= e < 4294967295`, the resulting list is the snippets ending before `s - 1` (each shown, in their
order), then the returned snippet, then the snippets starting after `e + 1`
(each shown, in their order); the returned snippet has the range from the
smallest of `s` and the touching starts to the largest of `e` and the
touching ends, and its index is the number of snippets before it. -/
theorem insertCodeSnippet_eq_interval_merge (m_errorInfos : List ErrorInfo)
    (params : CodeSnippetParams) (f : QtCodeFile)
    (hinv : SnippetListInv f.m_snippets)
    (hse : params.startLineNumber ≤ params.endLineNumber)
    (hnw : params.endLineNumber + 1 < UINT_MOD) :
    (QtCodeFile.insertCodeSnippet m_errorInfos params f).2.m_snippets =
      (f.m_snippets.filter (endsBefore params.startLineNumber)).map QtCodeSnippet.show ++
        (QtCodeFile.insertCodeSnippet m_errorInfos params f).1 ::
        (f.m_snippets.filter (startsAfter params.endLineNumber)).map QtCodeSnippet.show ∧
    (QtCodeFile.insertCodeSnippet m_errorInfos params f).1.range =
      (minStart params.startLineNumber
          (f.m_snippets.filter (touches params.startLineNumber params.endLineNumber)),
        maxEnd params.endLineNumber
          (f.m_snippets.filter (touches params.startLineNumber params.endLineNumber))) ∧
    (QtCodeFile.insertCodeSnippet m_errorInfos params f).2.m_snippets[
        (f.m_snippets.filter (endsBefore params.startLineNumber)).length]? =
      some (QtCodeFile.insertCodeSnippet m_errorInfos params f).1 ∧
    (QtCodeFile.insertCodeSnippet m_errorInfos params f).2.m_snippets.map QtCodeSnippet.range =
      (f.m_snippets.filter (endsBefore params.startLineNumber)).map QtCodeSnippet.range ++
        (minStart params.startLineNumber
            (f.m_snippets.filter (touches params.startLineNumber params.endLineNumber)),
          maxEnd params.endLineNumber
            (f.m_snippets.filter (touches params.startLineNumber params.endLineNumber))) ::
        (f.m_snippets.filter (startsAfter params.endLineNumber)).map QtCodeSnippet.range := by
  obtain ⟨hwf, hnwl, hgap⟩ := hinv
  have hpw := neighbourGap_pairwise _ hwf hgap
  obtain ⟨i1, i2, i3, i4⟩ := scan_spec f.m_snippets (QtCodeSnippet.ofParams params)
    hwf hnwl hpw hse hnw
  obtain ⟨hs, hr⟩ := insertCodeSnippet_snippets m_errorInfos params f
  rw [i1, i2] at hs
  have hrange : (QtCodeFile.insertCodeSnippet m_errorInfos params f).1.range =
      (minStart params.startLineNumber
          (f.m_snippets.filter (touches params.startLineNumber params.endLineNumber)),
        maxEnd params.endLineNumber
          (f.m_snippets.filter (touches params.startLineNumber params.endLineNumber))) := by
    rw [hr]
    simp only [QtCodeSnippet.range, QtCodeSnippet.show, i3, i4]
    rfl
  have hlist : (QtCodeFile.insertCodeSnippet m_errorInfos params f).2.m_snippets =
      (f.m_snippets.filter (endsBefore params.startLineNumber)).map QtCodeSnippet.show ++
        (QtCodeFile.insertCodeSnippet m_errorInfos params f).1 ::
        (f.m_snippets.filter (startsAfter params.endLineNumber)).map QtCodeSnippet.show := by
    rw [hs, hr]
    simp only [List.map_append, List.map_cons]
    rfl
  refine ⟨hlist, hrange, ?_, ?_⟩
  · rw [hlist]
    have hlen : (f.m_snippets.filter (endsBefore params.startLineNumber)).length =
        ((f.m_snippets.filter (endsBefore params.startLineNumber)).map
          QtCodeSnippet.show).length := by simp
    rw [hlen, List.getElem?_append_right (le_refl _)]
    simp
  · rw [hlist, List.map_append, List.map_cons, map_show_range, map_show_range, hrange]


theorem insertCodeSnippet_preserves_invariant_witness :
    SnippetListInv
      (fileWith [snippetAt 1 3, snippetAt 10 20, snippetAt 22 25, snippetAt 40 50]).m_snippets ∧
    (paramsAt 21 21).startLineNumber ≤ (paramsAt 21 21).endLineNumber ∧
    (paramsAt 21 21).endLineNumber + 1 < UINT_MOD ∧
    SnippetListInv (QtCodeFile.insertCodeSnippet [] (paramsAt 21 21)
      (fileWith [snippetAt 1 3, snippetAt 10 20, snippetAt 22 25, snippetAt 40 50])).2.m_snippets ∧
    SortedApart (QtCodeFile.insertCodeSnippet [] (paramsAt 21 21)
      (fileWith [snippetAt 1 3, snippetAt 10 20, snippetAt 22 25, snippetAt 40 50])).2.m_snippets :=
  ⟨by decide, by decide, by decide,
    insertCodeSnippet_preserves_invariant [] (paramsAt 21 21)
      (fileWith [snippetAt 1 3, snippetAt 10 20, snippetAt 22 25, snippetAt 40 50])
      (by decide) (by decide) (by decide)⟩

theorem insertCodeSnippet_eq_interval_merge_witness :
    SnippetListInv
      (fileWith [snippetAt 1 3, snippetAt 10 20, snippetAt 31 35, snippetAt 40 50]).m_snippets ∧
    (paramsAt 21 30).startLineNumber ≤ (paramsAt 21 30).endLineNumber ∧
    (paramsAt 21 30).endLineNumber + 1 < UINT_MOD ∧
    (QtCodeFile.insertCodeSnippet [] (paramsAt 21 30)
        (fileWith [snippetAt 1 3, snippetAt 10 20, snippetAt 31 35, snippetAt 40 50])).2.m_snippets.map
      QtCodeSnippet.range = [(1, 3), (10, 35), (40, 50)] :=
  ⟨by decide, by decide, by decide,
    (insertCodeSnippet_eq_interval_merge [] (paramsAt 21 30)
      (fileWith [snippetAt 1 3, snippetAt 10 20, snippetAt 31 35, snippetAt 40 50])
      (by decide) (by decide) (by decide)).2.2.2⟩

/-! ## insertCodeSnippet: the three scenarios of the specification -/

/-- The snippet list after the first insertion into a file without snippets. -/
theorem insertCodeSnippet_empty (m_errorInfos : List ErrorInfo) (p : CodeSnippetParams)
    (f : QtCodeFile) (hf : f.m_snippets = []) :
    (QtCodeFile.insertCodeSnippet m_errorInfos p f).2.m_snippets =
      [(QtCodeSnippet.ofParams p).show] := by
  rw [(insertCodeSnippet_snippets m_errorInfos p f).1, hf]
  simp [scan]

/-- C3, amended: adjacent ranges coalesce. Inserting `[a, b]` and then
`[b+1, c]` (with `a <= b < c` and `c < 4294967295`, the largest `uint`) into
a file without snippets leaves exactly one snippet, with range `[a, c]`. -/
theorem insertCodeSnippet_adjacent_coalesce (m_errorInfos : List ErrorInfo)
    (p1 p2 : CodeSnippetParams) (f : QtCodeFile) (hf : f.m_snippets = [])
    (hab : p1.startLineNumber ≤ p1.endLineNumber)
    (hadj : p2.startLineNumber = p1.endLineNumber + 1)
    (hbc : p1.endLineNumber < p2.endLineNumber)
    (hnw : p2.endLineNumber + 1 < UINT_MOD) :
    (QtCodeFile.insertCodeSnippet m_errorInfos p2
        (QtCodeFile.insertCodeSnippet m_errorInfos p1 f).2).2.m_snippets.map QtCodeSnippet.range =
      [(p1.startLineNumber, p2.endLineNumber)] := by
  have h1 := insertCodeSnippet_empty m_errorInfos p1 f hf
  rw [(insertCodeSnippet_snippets m_errorInfos p2 _).1, h1, map_show_range]
  have m1 : (p1.endLineNumber + 1) % UINT_MOD = p1.endLineNumber + 1 :=
    Nat.mod_eq_of_lt (by omega)
  have m2 : (p2.endLineNumber + 1) % UINT_MOD = p2.endLineNumber + 1 := Nat.mod_eq_of_lt hnw
  have c1 : ¬ (p1.endLineNumber + 1 < p2.startLineNumber) := by omega
  have c2 : ¬ (p1.startLineNumber > p2.endLineNumber + 1) := by omega
  have c3 : p1.startLineNumber < p2.startLineNumber ∨ p1.endLineNumber > p2.endLineNumber := by
    omega
  simp only [scan, QtCodeSnippet.ofParams, QtCodeSnippet.show, absorb, QtCodeSnippet.merged,
    QtCodeSnippet.range, m1, m2, c1, c2, c3, if_true, if_false, List.nil_append, List.map_cons,
    List.map_nil]
  have e1 : min p2.startLineNumber p1.startLineNumber = p1.startLineNumber := by omega
  have e2 : max p2.endLineNumber p1.endLineNumber = p2.endLineNumber := by omega
  rw [e1, e2]

theorem insertCodeSnippet_adjacent_coalesce_witness :
    (QtCodeFile.new "a.cpp").m_snippets = [] ∧
    (paramsAt 10 20).startLineNumber ≤ (paramsAt 10 20).endLineNumber ∧
    (paramsAt 21 30).startLineNumber = (paramsAt 10 20).endLineNumber + 1 ∧
    (paramsAt 10 20).endLineNumber < (paramsAt 21 30).endLineNumber ∧
    (paramsAt 21 30).endLineNumber + 1 < UINT_MOD ∧
    (QtCodeFile.insertCodeSnippet [] (paramsAt 21 30)
        (QtCodeFile.insertCodeSnippet [] (paramsAt 10 20)
          (QtCodeFile.new "a.cpp")).2).2.m_snippets.map QtCodeSnippet.range = [(10, 30)] :=
  ⟨rfl, by decide, by decide, by decide, by decide,
    insertCodeSnippet_adjacent_coalesce [] (paramsAt 10 20) (paramsAt 21 30)
      (QtCodeFile.new "a.cpp") rfl (by decide) (by decide) (by decide) (by decide)⟩

/-- C4, amended: a range bridging a one-line gap merges both neighbours.
Inserting `[b+2, d]`, then `[a, b]`, then `[b+1, b+1]` (with `a <= b`,
`d >= b + 2` and `d < 4294967295`, the largest `uint`) into a file without
snippets leaves the two
snippets `[a, b]`, `[b+2, d]` after the second insertion and exactly one
snippet, with range `[a, d]`, after the third. -/
theorem insertCodeSnippet_bridge_gap (m_errorInfos : List ErrorInfo)
    (p1 p2 p3 : CodeSnippetParams) (f : QtCodeFile) (hf : f.m_snippets = [])
    (hab : p2.startLineNumber ≤ p2.endLineNumber)
    (h1s : p1.startLineNumber = p2.endLineNumber + 2)
    (h1e : p1.startLineNumber ≤ p1.endLineNumber)
    (h3s : p3.startLineNumber = p2.endLineNumber + 1)
    (h3e : p3.endLineNumber = p2.endLineNumber + 1)
    (hnw : p1.endLineNumber + 1 < UINT_MOD) :
    (QtCodeFile.insertCodeSnippet m_errorInfos p2
        (QtCodeFile.insertCodeSnippet m_errorInfos p1 f).2).2.m_snippets.map QtCodeSnippet.range =
      [(p2.startLineNumber, p2.endLineNumber), (p1.startLineNumber, p1.endLineNumber)] ∧
    (QtCodeFile.insertCodeSnippet m_errorInfos p3
        (QtCodeFile.insertCodeSnippet m_errorInfos p2
          (QtCodeFile.insertCodeSnippet m_errorInfos p1 f).2).2).2.m_snippets.map
        QtCodeSnippet.range =
      [(p2.startLineNumber, p1.endLineNumber)] := by
  have h1 := insertCodeSnippet_empty m_errorInfos p1 f hf
  have m1 : (p1.endLineNumber + 1) % UINT_MOD = p1.endLineNumber + 1 := Nat.mod_eq_of_lt hnw
  have m2 : (p2.endLineNumber + 1) % UINT_MOD = p2.endLineNumber + 1 :=
    Nat.mod_eq_of_lt (by omega)
  have m3 : (p3.endLineNumber + 1) % UINT_MOD = p3.endLineNumber + 1 :=
    Nat.mod_eq_of_lt (by omega)
  have c1 : ¬ (p1.endLineNumber + 1 < p2.startLineNumber) := by omega
  have c2 : p1.startLineNumber > p2.endLineNumber + 1 := by omega
  have h2 : (QtCodeFile.insertCodeSnippet m_errorInfos p2
      (QtCodeFile.insertCodeSnippet m_errorInfos p1 f).2).2.m_snippets =
      [(QtCodeSnippet.ofParams p2).show, (QtCodeSnippet.ofParams p1).show.show] := by
    rw [(insertCodeSnippet_snippets m_errorInfos p2 _).1, h1]
    simp only [scan, QtCodeSnippet.ofParams, QtCodeSnippet.show, m1, m2, c1, c2, if_true,
      if_false, List.nil_append, List.map_cons, List.map_nil]
  refine ⟨?_, ?_⟩
  · rw [h2]
    rfl
  · rw [(insertCodeSnippet_snippets m_errorInfos p3 _).1, h2, map_show_range]
    have d1 : ¬ (p2.endLineNumber + 1 < p3.startLineNumber) := by omega
    have d2 : ¬ (p2.startLineNumber > p3.endLineNumber + 1) := by omega
    have d3 : p2.startLineNumber < p3.startLineNumber ∨ p2.endLineNumber > p3.endLineNumber := by
      omega
    have d4 : ¬ (p1.endLineNumber + 1 < min p3.startLineNumber p2.startLineNumber) := by omega
    have m4 : (max p3.endLineNumber p2.endLineNumber + 1) % UINT_MOD =
        max p3.endLineNumber p2.endLineNumber + 1 := Nat.mod_eq_of_lt (by omega)
    have d5 : ¬ (p1.startLineNumber > max p3.endLineNumber p2.endLineNumber + 1) := by omega
    have d6 : p1.startLineNumber < min p3.startLineNumber p2.startLineNumber ∨
        p1.endLineNumber > max p3.endLineNumber p2.endLineNumber := by omega
    simp only [scan, QtCodeSnippet.ofParams, QtCodeSnippet.show, absorb, QtCodeSnippet.merged,
      QtCodeSnippet.range, m1, m2, m3, m4, d1, d2, d3, d4, d5, d6, if_true, if_false,
      List.nil_append, List.map_cons, List.map_nil]
    have e1 : min (min p3.startLineNumber p2.startLineNumber) p1.startLineNumber =
        p2.startLineNumber := by omega
    have e2 : max (max p3.endLineNumber p2.endLineNumber) p1.endLineNumber =
        p1.endLineNumber := by omega
    rw [e1, e2]

theorem insertCodeSnippet_bridge_gap_witness :
    (QtCodeFile.new "a.cpp").m_snippets = [] ∧
    (paramsAt 5 8).startLineNumber ≤ (paramsAt 5 8).endLineNumber ∧
    (paramsAt 10 20).startLineNumber = (paramsAt 5 8).endLineNumber + 2 ∧
    (paramsAt 10 20).startLineNumber ≤ (paramsAt 10 20).endLineNumber ∧
    (paramsAt 9 9).startLineNumber = (paramsAt 5 8).endLineNumber + 1 ∧
    (paramsAt 9 9).endLineNumber = (paramsAt 5 8).endLineNumber + 1 ∧
    (paramsAt 10 20).endLineNumber + 1 < UINT_MOD ∧
    (QtCodeFile.insertCodeSnippet [] (paramsAt 5 8)
        (QtCodeFile.insertCodeSnippet [] (paramsAt 10 20)
          (QtCodeFile.new "a.cpp")).2).2.m_snippets.map QtCodeSnippet.range =
      [(5, 8), (10, 20)] ∧
    (QtCodeFile.insertCodeSnippet [] (paramsAt 9 9)
        (QtCodeFile.insertCodeSnippet [] (paramsAt 5 8)
          (QtCodeFile.insertCodeSnippet [] (paramsAt 10 20)
            (QtCodeFile.new "a.cpp")).2).2).2.m_snippets.map QtCodeSnippet.range =
      [(5, 20)] :=
  ⟨rfl, by decide, by decide, by decide, by decide, by decide, by decide,
    insertCodeSnippet_bridge_gap [] (paramsAt 10 20) (paramsAt 5 8) (paramsAt 9 9)
      (QtCodeFile.new "a.cpp") rfl (by decide) (by decide) (by decide) (by decide) (by decide)
      (by decide)⟩

/-- C5: ranges separated by at least one uncovered line stay distinct.
Inserting `[a, b]` and then `[c, d]` (with `a <= b`, `c <= d`, `c >= b + 2`)
into a file without snippets leaves exactly the two snippets `[a, b]`,
`[c, d]`, in this order and with both ranges unchanged; this also holds when
`d` is the largest `uint`. -/
theorem insertCodeSnippet_separate_stay_distinct (m_errorInfos : List ErrorInfo)
    (p1 p2 : CodeSnippetParams) (f : QtCodeFile) (hf : f.m_snippets = [])
    (_hab : p1.startLineNumber ≤ p1.endLineNumber)
    (_hcd : p2.startLineNumber ≤ p2.endLineNumber)
    (hgap : p2.startLineNumber ≥ p1.endLineNumber + 2) :
    (QtCodeFile.insertCodeSnippet m_errorInfos p2
        (QtCodeFile.insertCodeSnippet m_errorInfos p1 f).2).2.m_snippets.map QtCodeSnippet.range =
      [(p1.startLineNumber, p1.endLineNumber), (p2.startLineNumber, p2.endLineNumber)] := by
  have h1 := insertCodeSnippet_empty m_errorInfos p1 f hf
  rw [(insertCodeSnippet_snippets m_errorInfos p2 _).1, h1, map_show_range]
  have m1 : (p1.endLineNumber + 1) % UINT_MOD ≤ p1.endLineNumber + 1 := Nat.mod_le _ _
  have c1 : (p1.endLineNumber + 1) % UINT_MOD < p2.startLineNumber := by omega
  simp only [scan, QtCodeSnippet.ofParams, QtCodeSnippet.show, QtCodeSnippet.range, c1,
    if_true, List.cons_append, List.nil_append, List.map_cons, List.map_nil]

theorem insertCodeSnippet_separate_stay_distinct_witness :
    (QtCodeFile.new "a.cpp").m_snippets = [] ∧
    (paramsAt 10 20).startLineNumber ≤ (paramsAt 10 20).endLineNumber ∧
    (paramsAt 25 30).startLineNumber ≤ (paramsAt 25 30).endLineNumber ∧
    (paramsAt 25 30).startLineNumber ≥ (paramsAt 10 20).endLineNumber + 2 ∧
    (QtCodeFile.insertCodeSnippet [] (paramsAt 25 30)
        (QtCodeFile.insertCodeSnippet [] (paramsAt 10 20)
          (QtCodeFile.new "a.cpp")).2).2.m_snippets.map QtCodeSnippet.range =
      [(10, 20), (25, 30)] :=
  ⟨rfl, by decide, by decide, by decide,
    insertCodeSnippet_separate_stay_distinct [] (paramsAt 10 20) (paramsAt 25 30)
      (QtCodeFile.new "a.cpp") rfl (by decide) (by decide) (by decide)⟩

/-! ## Sequences of addCodeSnippet and insertCodeSnippet calls -/

/-- Hiding every snippet keeps the line ranges. -/
theorem map_hide_range (l : List QtCodeSnippet) :
    (l.map QtCodeSnippet.hide).map QtCodeSnippet.range = l.map QtCodeSnippet.range := by
  simp [List.map_map, Function.comp_def, QtCodeSnippet.range, QtCodeSnippet.hide]

/-- The method `updateRefCount` only changes the label. -/
theorem updateRefCount_snippets (m_errorInfos : List ErrorInfo) (n : Int) (f : QtCodeFile) :
    (QtCodeFile.updateRefCount m_errorInfos n f).m_snippets = f.m_snippets := by
  unfold QtCodeFile.updateRefCount
  split_ifs <;> rfl

/-- The snippet list after `addCodeSnippet`. -/
theorem addCodeSnippet_snippets (m_errorInfos : List ErrorInfo) (p : CodeSnippetParams)
    (f : QtCodeFile) :
    (QtCodeFile.addCodeSnippet m_errorInfos p f).m_snippets =
      if p.locationFile.isWholeCopy then f.m_snippets.map QtCodeSnippet.hide
      else (f.m_snippets ++ [QtCodeSnippet.ofParams p]).map QtCodeSnippet.show := by
  by_cases hr : p.reduced = true <;> by_cases hw : p.locationFile.isWholeCopy = true <;>
    by_cases h1 : p.refCount = -1 <;>
    simp [QtCodeFile.addCodeSnippet, hr, hw, h1, updateRefCount_snippets,
      QtCodeFile.setMaximized, QtCodeFile.setSnippets]

/-- Appending a snippet that starts at least 2 lines after the last one
keeps the pairwise gaps. -/
theorem pairwise_append_last (l : List QtCodeSnippet) (c : QtCodeSnippet)
    (hwf : ∀ x ∈ l, WellFormed x)
    (hpw : l.Pairwise (fun a b => a.endLineNumber + 2 ≤ b.startLineNumber))
    (hlast : StartsAfterLast l c.startLineNumber) :
    (l ++ [c]).Pairwise (fun a b => a.endLineNumber + 2 ≤ b.startLineNumber) := by
  rw [List.pairwise_append]
  refine ⟨hpw, List.pairwise_singleton _ _, ?_⟩
  intro a ha b hb
  rw [List.mem_singleton] at hb
  subst hb
  rcases List.eq_nil_or_concat l with rfl | ⟨init, last, rfl⟩
  · simp at ha
  · simp only [List.concat_eq_append] at hwf hpw hlast ha
    have hg : (init ++ [last]).getLast? = some last := List.getLast?_concat _
    simp only [StartsAfterLast, hg] at hlast
    have hl := hwf last (by simp)
    unfold WellFormed at hl
    rcases List.mem_append.mp ha with h | h
    · have := (List.pairwise_append.mp hpw).2.2 a h last (by simp)
      omega
    · rw [List.mem_singleton] at h
      subst h
      exact hlast

/-- One call that is in order keeps the invariant. -/
theorem applyCall_inv (m_errorInfos : List ErrorInfo) (c : SnippetCall) (f : QtCodeFile)
    (hinv : SnippetListInv f.m_snippets) (hc : CallInOrder c f) :
    SnippetListInv (applyCall m_errorInfos c f).m_snippets := by
  obtain ⟨⟨hse, hnw⟩, hord⟩ := hc
  cases c with
  | insert p =>
    obtain ⟨g1, g2, g3⟩ := insertCodeSnippet_good m_errorInfos p f hinv hse hnw
    exact ⟨g1, g2, pairwise_neighbourGap _ g3⟩
  | add p =>
    obtain ⟨hwf, hnwl, hgap⟩ := hinv
    have hpw := neighbourGap_pairwise _ hwf hgap
    simp only [applyCall, addCodeSnippet_snippets]
    by_cases hw : p.locationFile.isWholeCopy = true
    · simp only [hw, if_true]
      obtain ⟨g1, g2, g3⟩ := inv_of_map_range_eq f.m_snippets _ (map_hide_range _) hwf hnwl hpw
      exact ⟨g1, g2, pairwise_neighbourGap _ g3⟩
    · simp only [hw, if_false, Bool.false_eq_true]
      have hlast : StartsAfterLast f.m_snippets p.startLineNumber := by
        rcases hord with h | h
        · exact absurd h hw
        · exact h
      have k1 : ∀ x ∈ f.m_snippets ++ [QtCodeSnippet.ofParams p], WellFormed x := by
        intro x hx
        rcases List.mem_append.mp hx with h | h
        · exact hwf x h
        · rw [List.mem_singleton] at h
          subst h
          exact hse
      have k2 : ∀ x ∈ f.m_snippets ++ [QtCodeSnippet.ofParams p], NoWrap x := by
        intro x hx
        rcases List.mem_append.mp hx with h | h
        · exact hnwl x h
        · rw [List.mem_singleton] at h
          subst h
          exact hnw
      have k3 := pairwise_append_last f.m_snippets (QtCodeSnippet.ofParams p) hwf hpw hlast
      obtain ⟨g1, g2, g3⟩ := inv_of_map_range_eq _ _ (map_show_range _) k1 k2 k3
      exact ⟨g1, g2, pairwise_neighbourGap _ g3⟩

/-- A sequence of calls that are in order keeps the invariant. -/
theorem applyCalls_inv (m_errorInfos : List ErrorInfo) (cs : List SnippetCall) :
    ∀ f : QtCodeFile, SnippetListInv f.m_snippets → CallsInOrder m_errorInfos cs f →
      SnippetListInv (applyCalls m_errorInfos cs f).m_snippets := by
  induction cs with
  | nil => intro f hinv _; exact hinv
  | cons c rest ih =>
    intro f hinv hc
    exact ih _ (applyCall_inv m_errorInfos c f hinv hc.1) hc.2

/-- C6, as stated, fails: two appended partial snippets `[10, 20]` and then
`[5, 8]`, both with start <= end, on a newly created file leave the list
`[10, 20], [5, 8]`, whose second snippet does not start 2 lines after the end
of the first. It also fails without any append: the insertions of `[10, 20]`
and then `[5, 4294967295]`, whose `end + 1` wraps to 0, leave the list
`[5, 4294967295], [10, 20]`. -/
theorem addCodeSnippet_breaks_neighbour_gap :
    (∀ c ∈ [SnippetCall.add (paramsAt 10 20), SnippetCall.add (paramsAt 5 8)], RangeOk c) ∧
    (applyCalls [] [SnippetCall.add (paramsAt 10 20), SnippetCall.add (paramsAt 5 8)]
      (QtCodeFile.new "a.cpp")).m_snippets.map QtCodeSnippet.range = [(10, 20), (5, 8)] ∧
    ¬ NeighbourGap (applyCalls [] [SnippetCall.add (paramsAt 10 20), SnippetCall.add (paramsAt 5 8)]
      (QtCodeFile.new "a.cpp")).m_snippets ∧
    (∀ c ∈ [SnippetCall.insert (paramsAt 10 20), SnippetCall.insert (paramsAt 5 4294967295)],
      c.params.startLineNumber ≤ c.params.endLineNumber) ∧
    (applyCalls [] [SnippetCall.insert (paramsAt 10 20),
      SnippetCall.insert (paramsAt 5 4294967295)]
      (QtCodeFile.new "a.cpp")).m_snippets.map QtCodeSnippet.range =
        [(5, 4294967295), (10, 20)] ∧
    ¬ NeighbourGap (applyCalls [] [SnippetCall.insert (paramsAt 10 20),
      SnippetCall.insert (paramsAt 5 4294967295)] (QtCodeFile.new "a.cpp")).m_snippets := by
  have h : (applyCalls [] [SnippetCall.insert (paramsAt 10 20),
      SnippetCall.insert (paramsAt 5 4294967295)] (QtCodeFile.new "a.cpp")).m_snippets =
      [snippetAt 5 4294967295, snippetAt 10 20] := by
    simp only [applyCalls, applyCall]
    rw [(insertCodeSnippet_snippets [] _ _).1,
      insertCodeSnippet_empty [] (paramsAt 10 20) (QtCodeFile.new "a.cpp") rfl]
    simp [scan, paramsAt, snippetAt, QtCodeSnippet.ofParams, QtCodeSnippet.show, UINT_MOD]
  refine ⟨by decide, by decide, by decide, by decide, ?_, ?_⟩
  · rw [h]
    rfl
  · rw [h]
    decide

/-- C6, amended: for every sequence of `addCodeSnippet` and
`insertCodeSnippet` calls with ranges start <= end whose end line is below
the largest `uint` 4294967295, applied to a newly created file, in which
every appended partial snippet starts at least 2 lines after the end of the
last snippet then in `m_snippets`, the list satisfies the invariant: each
snippet starts at least 2 lines after the end of the one before it, and the
list is sorted by start line. -/
theorem calls_in_order_keep_invariant (m_errorInfos : List ErrorInfo) (filePath : FilePath)
    (cs : List SnippetCall)
    (hc : CallsInOrder m_errorInfos cs (QtCodeFile.new filePath)) :
    NeighbourGap (applyCalls m_errorInfos cs (QtCodeFile.new filePath)).m_snippets ∧
    SortedApart (applyCalls m_errorInfos cs (QtCodeFile.new filePath)).m_snippets := by
  have hnew : SnippetListInv (QtCodeFile.new filePath).m_snippets := by
    refine ⟨?_, ?_, trivial⟩ <;> intro x hx <;> simp [QtCodeFile.new] at hx
  obtain ⟨g1, _, g3⟩ := applyCalls_inv m_errorInfos cs _ hnew hc
  exact ⟨g3, sortedApart_of_gaps _ g1 (neighbourGap_pairwise _ g1 g3)⟩

theorem calls_in_order_keep_invariant_witness :
    CallsInOrder [] [SnippetCall.add (paramsAt 10 20), SnippetCall.add (paramsAt 25 30),
      SnippetCall.insert (paramsAt 21 24)] (QtCodeFile.new "a.cpp") ∧
    NeighbourGap (applyCalls [] [SnippetCall.add (paramsAt 10 20),
      SnippetCall.add (paramsAt 25 30), SnippetCall.insert (paramsAt 21 24)]
      (QtCodeFile.new "a.cpp")).m_snippets ∧
    SortedApart (applyCalls [] [SnippetCall.add (paramsAt 10 20),
      SnippetCall.add (paramsAt 25 30), SnippetCall.insert (paramsAt 21 24)]
      (QtCodeFile.new "a.cpp")).m_snippets :=
  ⟨by decide, calls_in_order_keep_invariant [] "a.cpp" _ (by decide)⟩

/-! ## Title-bar click -/

/-- C7, as stated, fails: a newly created file that got a location file
(`setLocationFile`) and was then minimized has no snippets, yet the
title-bar click requests `FILE_SNIPPETS`, not `FILE_MAXIMIZED`. -/
theorem clickedTitleBar_minimized_location_file :
    Reachable (QtCodeFile.setMinimized
      (QtCodeFile.setLocationFile [] (some locationFileB) 2 (QtCodeFile.new "b.cpp"))) ∧
    (QtCodeFile.setMinimized
      (QtCodeFile.setLocationFile [] (some locationFileB) 2 (QtCodeFile.new "b.cpp"))).m_snippets
      = [] ∧
    (QtCodeFile.clickedTitleBar [] (QtCodeFile.setMinimized
      (QtCodeFile.setLocationFile [] (some locationFileB) 2 (QtCodeFile.new "b.cpp")))).state
      = FileState.FILE_SNIPPETS ∧
    (QtCodeFile.clickedTitleBar [] (QtCodeFile.setMinimized
      (QtCodeFile.setLocationFile [] (some locationFileB) 2 (QtCodeFile.new "b.cpp")))).state
      ≠ FileState.FILE_MAXIMIZED :=
  ⟨Reachable.setMinimized _ (Reachable.setLocationFile [] (some locationFileB) 2 _
      (Reachable.created "b.cpp")),
    by decide, by decide, by decide⟩

/-- C7, amended: in every state, reachable through the public operations or
not, after `setMinimized` the title-bar click requests `FILE_SNIPPETS` if
`m_snippets` is non-empty or `m_locationFile` is set, and `FILE_MAXIMIZED`
if neither holds and the snippet control was not enabled before; after
`setMaximized` it requests `FILE_MINIMIZED`. The click requests one mode
change, the first enabled control in the order minimize, snippet-list,
maximize, and the control it picks after `setMinimized` or `setMaximized`
is enabled. -/
theorem clickedTitleBar_transitions (m_errorInfos : List ErrorInfo) (f : QtCodeFile) :
    ((f.m_snippets ≠ [] ∨ f.m_locationFile.isSome = true) →
      (QtCodeFile.clickedTitleBar m_errorInfos (QtCodeFile.setMinimized f)).state =
        FileState.FILE_SNIPPETS ∧
      (QtCodeFile.setMinimized f).snippetButtonEnabled = true) ∧
    ((f.m_snippets = [] ∧ f.m_locationFile = none ∧ f.snippetButtonEnabled = false) →
      (QtCodeFile.clickedTitleBar m_errorInfos (QtCodeFile.setMinimized f)).state =
        FileState.FILE_MAXIMIZED ∧
      (QtCodeFile.setMinimized f).maximizeButtonEnabled = true) ∧
    ((QtCodeFile.clickedTitleBar m_errorInfos (QtCodeFile.setMaximized f)).state =
        FileState.FILE_MINIMIZED ∧
      (QtCodeFile.setMaximized f).minimizeButtonEnabled = true) ∧
    (QtCodeFile.clickedTitleBar m_errorInfos f).state =
      (if f.minimizeButtonEnabled = true then FileState.FILE_MINIMIZED
       else if f.snippetButtonEnabled = true then FileState.FILE_SNIPPETS
       else FileState.FILE_MAXIMIZED) := by
  refine ⟨?_, ?_, ?_, ?_⟩
  · intro h
    have hb : (QtCodeFile.setMinimized f).snippetButtonEnabled = true := by
      rcases h with h | h
      · have : f.m_snippets.length ≠ 0 := by
          intro h0
          exact h (List.length_eq_zero.mp h0)
        simp [QtCodeFile.setMinimized, this]
      · simp [QtCodeFile.setMinimized, h]
    refine ⟨?_, hb⟩
    unfold QtCodeFile.clickedTitleBar
    rw [hb]
    simp [QtCodeFile.setMinimized, QtCodeFile.clickedSnippetButton]
  · rintro ⟨h1, h2, h3⟩
    simp [QtCodeFile.clickedTitleBar, QtCodeFile.setMinimized, h1, h2, h3,
      QtCodeFile.clickedMaximizeButton]
  · simp [QtCodeFile.clickedTitleBar, QtCodeFile.setMaximized, QtCodeFile.clickedMinimizeButton]
  · unfold QtCodeFile.clickedTitleBar
    split_ifs <;> rfl

theorem clickedTitleBar_transitions_witness :
    Reachable (QtCodeFile.addCodeSnippet [] (paramsAt 10 20) (QtCodeFile.new "a.cpp")) ∧
    (QtCodeFile.clickedTitleBar [] (QtCodeFile.setMinimized
      (QtCodeFile.addCodeSnippet [] (paramsAt 10 20) (QtCodeFile.new "a.cpp")))).state =
        FileState.FILE_SNIPPETS ∧
    (QtCodeFile.clickedTitleBar [] (QtCodeFile.setMaximized
      (QtCodeFile.addCodeSnippet [] (paramsAt 10 20) (QtCodeFile.new "a.cpp")))).state =
        FileState.FILE_MINIMIZED :=
  ⟨Reachable.addCodeSnippet [] _ _ (Reachable.created "a.cpp"),
    ((clickedTitleBar_transitions []
      (QtCodeFile.addCodeSnippet [] (paramsAt 10 20) (QtCodeFile.new "a.cpp"))).1
        (Or.inl (by decide))).1,
    (clickedTitleBar_transitions []
      (QtCodeFile.addCodeSnippet [] (paramsAt 10 20) (QtCodeFile.new "a.cpp"))).2.2.1.1⟩

/-- After a location file was set, a whole-file snippet added and the file
minimized, the snippet control is still enabled although the file has
neither snippets nor a location file: the click requests `FILE_SNIPPETS`. -/
theorem clickedTitleBar_snippet_control_left_enabled :
    (QtCodeFile.setMinimized (QtCodeFile.addCodeSnippet []
      { paramsAt 1 40 with locationFile := { locationFileB with isWholeCopy := true } }
      (QtCodeFile.setLocationFile [] (some locationFileB) 2
        (QtCodeFile.new "b.cpp")))).m_locationFile = none ∧
    (QtCodeFile.setMinimized (QtCodeFile.addCodeSnippet []
      { paramsAt 1 40 with locationFile := { locationFileB with isWholeCopy := true } }
      (QtCodeFile.setLocationFile [] (some locationFileB) 2
        (QtCodeFile.new "b.cpp")))).m_snippets = [] ∧
    (QtCodeFile.clickedTitleBar [] (QtCodeFile.setMinimized (QtCodeFile.addCodeSnippet []
      { paramsAt 1 40 with locationFile := { locationFileB with isWholeCopy := true } }
      (QtCodeFile.setLocationFile [] (some locationFileB) 2
        (QtCodeFile.new "b.cpp"))))).state = FileState.FILE_SNIPPETS := by
  decide

/-! ## Display mode of a file given by its path -/

/-- The search of `getFile` finds nothing exactly when no file has the path. -/
theorem findFile_eq_none (filePath : FilePath) (files : List QtCodeFile) :
    ∀ i, QtCodeFileList.findFile filePath files i = none ↔
      ∀ x ∈ files, x.m_filePath ≠ filePath := by
  induction files with
  | nil => intro i; simp [QtCodeFileList.findFile]
  | cons x rest ih =>
    intro i
    by_cases h : x.m_filePath = filePath
    · simp [QtCodeFileList.findFile, h]
    · simp [QtCodeFileList.findFile, h, ih (i + 1)]

/-- What the three display-mode methods do for a path that no file has:
`getFile` appends a new hidden file, and the mode is set on it. -/
theorem setFile_absent (path : FilePath) (l : QtCodeFileList)
    (h : ∀ x ∈ l.m_files, x.m_filePath ≠ path) :
    (QtCodeFileList.setFileMinimized path l).m_files =
      l.m_files ++ [QtCodeFile.setMinimized { QtCodeFile.new path with visible := false }] ∧
    (QtCodeFileList.setFileSnippets path l).m_files =
      l.m_files ++ [QtCodeFile.setSnippets { QtCodeFile.new path with visible := false }] ∧
    (QtCodeFileList.setFileMaximized path l).m_files =
      l.m_files ++ [QtCodeFile.setMaximized { QtCodeFile.new path with visible := false }] := by
  have hn := (findFile_eq_none path l.m_files 0).mpr h
  have hm : ∀ (g : QtCodeFile → QtCodeFile) (x : QtCodeFile),
      List.modify g l.m_files.length (l.m_files ++ [x]) = l.m_files ++ [g x] := by
    intro g x
    induction l.m_files with
    | nil => rfl
    | cons y t ih => simp [List.modify_succ_cons, ih]
  refine ⟨?_, ?_, ?_⟩
  · simp only [QtCodeFileList.setFileMinimized, QtCodeFileList.getFile, hn,
      QtCodeFileList.onFile, hm]
  · simp only [QtCodeFileList.setFileSnippets, QtCodeFileList.getFile, hn,
      QtCodeFileList.onFile, hm]
  · simp only [QtCodeFileList.setFileMaximized, QtCodeFileList.getFile, hn,
      QtCodeFileList.onFile, hm]

/-- For a path that some file has, the three display-mode methods apply the
mode change to the first file with this path and leave the rest of the
list as it is. -/
theorem setFile_present (path : FilePath) (l : QtCodeFileList) (i : Nat)
    (h : QtCodeFileList.findFile path l.m_files 0 = some i) :
    QtCodeFileList.setFileMinimized path l =
      { l with m_files := l.m_files.modify QtCodeFile.setMinimized i } ∧
    QtCodeFileList.setFileSnippets path l =
      { l with m_files := l.m_files.modify QtCodeFile.setSnippets i } ∧
    QtCodeFileList.setFileMaximized path l =
      { l with m_files := l.m_files.modify QtCodeFile.setMaximized i } := by
  simp [QtCodeFileList.setFileMinimized, QtCodeFileList.setFileSnippets,
    QtCodeFileList.setFileMaximized, QtCodeFileList.getFile, QtCodeFileList.onFile, h]

/-- C8, the code at the failing input: the list displays only `b.cpp`; for
the absent path `a.cpp` each of `setFileMinimized`, `setFileSnippets` and
`setFileMaximized` leaves two files in `m_files`, the second one a new file
`a.cpp`, so the collection is not unchanged. -/
theorem setFile_absent_appends_file :
    listWithB.m_files.map (fun f => f.m_filePath) = ["b.cpp"] ∧
    (QtCodeFileList.setFileMinimized "a.cpp" listWithB).m_files.map (fun f => f.m_filePath) =
      ["b.cpp", "a.cpp"] ∧
    (QtCodeFileList.setFileSnippets "a.cpp" listWithB).m_files.map (fun f => f.m_filePath) =
      ["b.cpp", "a.cpp"] ∧
    (QtCodeFileList.setFileMaximized "a.cpp" listWithB).m_files.map (fun f => f.m_filePath) =
      ["b.cpp", "a.cpp"] ∧
    (QtCodeFileList.setFileMinimized "a.cpp" listWithB).m_files ≠ listWithB.m_files := by
  decide

/-! ## The reference-count label -/

/-- The counting loop adds the number of fatal entries of the file. -/
theorem fatalErrorCountLoop_eq (filePath : FilePath) (errors : List ErrorInfo) :
    ∀ n, fatalErrorCountLoop filePath errors n =
      n + errors.countP (fun e => e.filePath == filePath && e.isFatal) := by
  induction errors with
  | nil => intro n; simp [fatalErrorCountLoop]
  | cons e rest ih =>
    intro n
    by_cases h : (e.filePath == filePath && e.isFatal) = true
    · have hc : List.countP (fun e => e.filePath == filePath && e.isFatal) (e :: rest) =
          List.countP (fun e => e.filePath == filePath && e.isFatal) rest + 1 :=
        List.countP_cons_of_pos _ _ h
      simp only [fatalErrorCountLoop, h, if_true, ih, hc]
      omega
    · have hc : List.countP (fun e => e.filePath == filePath && e.isFatal) (e :: rest) =
          List.countP (fun e => e.filePath == filePath && e.isFatal) rest :=
        List.countP_cons_of_neg _ _ h
      simp only [fatalErrorCountLoop, h, if_false, ih, hc, Bool.false_eq_true]

/-- A positive `int` is printed as the decimal numeral of its value. -/
theorem toString_pos (n : Int) (h : n > 0) : toString n = Nat.repr n.toNat := by
  cases n with
  | ofNat m => rfl
  | negSucc m => exact absurd h (by simp [Int.negSucc_lt_zero])

/-- C9, as stated, fails: the list holds one error entry, of `b.cpp`; the
file `a.cpp` has no associated error entry, yet for count 3 its label reads
"3 errors", not "3 references". -/
theorem updateRefCount_error_of_other_file :
    (∀ e ∈ errorsOfB, e.filePath ≠ (QtCodeFile.new "a.cpp").m_filePath) ∧
    (QtCodeFile.updateRefCount errorsOfB 3 (QtCodeFile.new "a.cpp")).m_referenceCount.text =
      "3 errors" ∧
    (QtCodeFile.updateRefCount errorsOfB 3 (QtCodeFile.new "a.cpp")).m_referenceCount.text ≠
      "3 references" := by
  decide

/-- C9, amended: `updateRefCount(n)` shows the label if and only if
`n > 0`, and for `n > 0` its text is the decimal `n`, a space, then "error"
when the owning list has any error entry (of whatever file) and "reference"
when it has none, then "s" exactly when `n > 1`, then " (k fatal)" exactly
when `k > 0`, where `k` is the number of error entries of this file's path
that are flagged fatal. -/
theorem updateRefCount_label (m_errorInfos : List ErrorInfo) (n : Int) (f : QtCodeFile) :
    ((QtCodeFile.updateRefCount m_errorInfos n f).m_referenceCount.visible = true ↔ n > 0) ∧
    (n > 0 →
      (QtCodeFile.updateRefCount m_errorInfos n f).m_referenceCount.text =
        Nat.repr n.toNat ++ " " ++
        (if m_errorInfos ≠ [] then "error" else "reference") ++
        (if n > 1 then "s" else "") ++
        (if 0 < m_errorInfos.countP (fun e => e.filePath == f.m_filePath && e.isFatal) then
          " (" ++ Nat.repr (m_errorInfos.countP
            (fun e => e.filePath == f.m_filePath && e.isFatal)) ++ " fatal)"
        else "")) := by
  constructor
  · unfold QtCodeFile.updateRefCount
    split_ifs with h <;> simp [h]
  · intro h
    have hk : getFatalErrorCountForFile m_errorInfos f.m_filePath =
        m_errorInfos.countP (fun e => e.filePath == f.m_filePath && e.isFatal) := by
      unfold getFatalErrorCountForFile
      rw [fatalErrorCountLoop_eq]
      omega
    have he : hasErrors m_errorInfos = true ↔ m_errorInfos ≠ [] := by
      unfold hasErrors
      cases m_errorInfos <;> simp
    have hts : ∀ k : Nat, toString k = Nat.repr k := fun _ => rfl
    simp only [QtCodeFile.updateRefCount, h, if_true, QtCodeFile.refCountText, hk,
      toString_pos n h, hts, gt_iff_lt]
    by_cases h1 : m_errorInfos ≠ [] <;> by_cases h2 : 1 < n <;>
      by_cases h3 : 0 < m_errorInfos.countP (fun e => e.filePath == f.m_filePath && e.isFatal) <;>
      simp only [he.mpr, h1, h2, h3, if_true, if_false, String.append_assoc,
        String.append_empty, not_false_eq_true, ne_eq, not_true_eq_false,
        Bool.false_eq_true] <;>
      simp_all [String.append_assoc]

theorem updateRefCount_label_witness :
    (3 : Int) > 0 ∧
    (QtCodeFile.updateRefCount
        [{ message := "no such file", filePath := "a.cpp", isFatal := true }] 3
        (QtCodeFile.new "a.cpp")).m_referenceCount.text = "3 errors (1 fatal)" :=
  ⟨by decide,
    (updateRefCount_label [{ message := "no such file", filePath := "a.cpp", isFatal := true }]
      3 (QtCodeFile.new "a.cpp")).2 (by decide)⟩

/-! ## The lines covered by the snippets -/

theorem covers_nil (n : Nat) : ¬ Covers [] n := by
  simp [Covers]

theorem covers_cons (x : QtCodeSnippet) (l : List QtCodeSnippet) (n : Nat) :
    Covers (x :: l) n ↔ (x.startLineNumber ≤ n ∧ n ≤ x.endLineNumber) ∨ Covers l n := by
  simp [Covers]

theorem covers_append (l l' : List QtCodeSnippet) (n : Nat) :
    Covers (l ++ l') n ↔ Covers l n ∨ Covers l' n := by
  simp only [Covers, List.mem_append]
  constructor
  · rintro ⟨x, hx | hx, h⟩
    · exact Or.inl ⟨x, hx, h⟩
    · exact Or.inr ⟨x, hx, h⟩
  · rintro (⟨x, hx, h⟩ | ⟨x, hx, h⟩)
    · exact ⟨x, Or.inl hx, h⟩
    · exact ⟨x, Or.inr hx, h⟩

theorem covers_iff_range (l : List QtCodeSnippet) (n : Nat) :
    Covers l n ↔ ∃ r ∈ l.map QtCodeSnippet.range, r.1 ≤ n ∧ n ≤ r.2 := by
  simp [Covers, QtCodeSnippet.range]

/-- The scan covers the lines of the list and of the new range, no others. -/
theorem scan_covers (l : List QtCodeSnippet) :
    ∀ c : QtCodeSnippet, (∀ x ∈ l, WellFormed x) → (∀ x ∈ l, NoWrap x) →
      WellFormed c → NoWrap c → ∀ n,
      (Covers ((scan c l).1 ++ (scan c l).2.1 :: (scan c l).2.2) n ↔
        Covers l n ∨ (c.startLineNumber ≤ n ∧ n ≤ c.endLineNumber)) := by
  induction l with
  | nil =>
    intro c _ _ _ _ n
    simp [scan, Covers]
  | cons x rest ih =>
    intro c hwf hnw hc hcn n
    have hx : WellFormed x := hwf x (List.mem_cons_self _ _)
    have hxn : NoWrap x := hnw x (List.mem_cons_self _ _)
    have hwf' : ∀ y ∈ rest, WellFormed y := fun y hy => hwf y (List.mem_cons_of_mem _ hy)
    have hnw' : ∀ y ∈ rest, NoWrap y := fun y hy => hnw y (List.mem_cons_of_mem _ hy)
    unfold WellFormed at hx hc
    unfold NoWrap at hxn hcn
    have m1 : (x.endLineNumber + 1) % UINT_MOD = x.endLineNumber + 1 := Nat.mod_eq_of_lt hxn
    have m2 : (c.endLineNumber + 1) % UINT_MOD = c.endLineNumber + 1 := Nat.mod_eq_of_lt hcn
    by_cases h1 : x.endLineNumber + 1 < c.startLineNumber
    · have i := ih c hwf' hnw' hc hcn n
      simp only [scan, m1, h1, if_true, List.cons_append, covers_cons, i]
      tauto
    · by_cases h2 : x.startLineNumber > c.endLineNumber + 1
      · simp only [scan, m1, m2, h1, h2, if_false, if_true, List.nil_append, covers_cons]
        tauto
      · have hs := absorb_start c x
        have he := absorb_end c x
        have hc' : WellFormed (absorb c x) := by
          unfold WellFormed; rw [hs, he]; omega
        have hcn' : NoWrap (absorb c x) := by
          unfold NoWrap; rw [he]; omega
        have i := ih (absorb c x) hwf' hnw' hc' hcn' n
        simp only [scan, m1, m2, h1, h2, if_false, covers_cons, i, hs, he]
        constructor
        · rintro (h | h)
          · exact Or.inl (Or.inr h)
          · by_cases hin : c.startLineNumber ≤ n ∧ n ≤ c.endLineNumber
            · exact Or.inr hin
            · refine Or.inl (Or.inl ?_)
              omega
        · rintro ((h | h) | h)
          · refine Or.inr ?_
            omega
          · exact Or.inl h
          · refine Or.inr ?_
            omega

/-- The lines covered after `insertCodeSnippet`: those covered before and
those of the new range. -/
theorem insertCodeSnippet_covers (m_errorInfos : List ErrorInfo) (p : CodeSnippetParams)
    (f : QtCodeFile) (hwf : ∀ x ∈ f.m_snippets, WellFormed x)
    (hnw : ∀ x ∈ f.m_snippets, NoWrap x) (hp : ParamsOk p) (n : Nat) :
    Covers (QtCodeFile.insertCodeSnippet m_errorInfos p f).2.m_snippets n ↔
      Covers f.m_snippets n ∨ (p.startLineNumber ≤ n ∧ n ≤ p.endLineNumber) := by
  have h := scan_covers f.m_snippets (QtCodeSnippet.ofParams p) hwf hnw hp.1 hp.2 n
  rw [covers_iff_range, (insertCodeSnippet_snippets m_errorInfos p f).1, map_show_range,
    ← covers_iff_range]
  exact h

/-- Every covered line is at or after the start of the first snippet. -/
theorem covers_ge_head (a : QtCodeSnippet) (t : List QtCodeSnippet)
    (hwf : ∀ x ∈ a :: t, WellFormed x)
    (hpw : (a :: t).Pairwise (fun a b => a.endLineNumber + 2 ≤ b.startLineNumber))
    (n : Nat) (h : Covers (a :: t) n) : a.startLineNumber ≤ n := by
  rcases (covers_cons a t n).mp h with h | ⟨y, hy, hyn⟩
  · exact h.1
  · have h1 := (List.pairwise_cons.mp hpw).1 y hy
    have h2 := hwf a (List.mem_cons_self _ _)
    unfold WellFormed at h2
    omega

/-- The line after the end of the first snippet is not covered. -/
theorem not_covers_after_head (a : QtCodeSnippet) (t : List QtCodeSnippet)
    (hpw : (a :: t).Pairwise (fun a b => a.endLineNumber + 2 ≤ b.startLineNumber)) :
    ¬ Covers (a :: t) (a.endLineNumber + 1) := by
  intro h
  rcases (covers_cons a t _).mp h with h | ⟨y, hy, hyn⟩
  · omega
  · have h1 := (List.pairwise_cons.mp hpw).1 y hy
    omega

/-- The tail covers the covered lines after the end of the first snippet. -/
theorem covers_tail (a : QtCodeSnippet) (t : List QtCodeSnippet)
    (hpw : (a :: t).Pairwise (fun a b => a.endLineNumber + 2 ≤ b.startLineNumber))
    (n : Nat) : Covers t n ↔ Covers (a :: t) n ∧ a.endLineNumber < n := by
  constructor
  · intro h
    refine ⟨(covers_cons a t n).mpr (Or.inr h), ?_⟩
    obtain ⟨y, hy, hyn⟩ := h
    have h1 := (List.pairwise_cons.mp hpw).1 y hy
    omega
  · rintro ⟨h, hn⟩
    rcases (covers_cons a t n).mp h with h | h
    · omega
    · exact h

/-- The first snippet of one list ends no later than the first snippet of
another list with the same start and the same covered lines. -/
theorem head_end_le (a b : QtCodeSnippet) (t1 t2 : List QtCodeSnippet)
    (hpw1 : (a :: t1).Pairwise (fun a b => a.endLineNumber + 2 ≤ b.startLineNumber))
    (hcov : ∀ n, Covers (a :: t1) n ↔ Covers (b :: t2) n)
    (hs : a.startLineNumber = b.startLineNumber) (ha : WellFormed a) :
    b.endLineNumber ≤ a.endLineNumber := by
  by_contra hlt
  unfold WellFormed at ha
  have hc : Covers (b :: t2) (a.endLineNumber + 1) :=
    (covers_cons b t2 _).mpr (Or.inl ⟨by omega, by omega⟩)
  exact not_covers_after_head a t1 hpw1 ((hcov _).mpr hc)

/-- Two lists that satisfy the invariant and cover the same lines have the
same line ranges. -/
theorem ranges_unique (l1 : List QtCodeSnippet) :
    ∀ l2 : List QtCodeSnippet,
      (∀ x ∈ l1, WellFormed x) →
      l1.Pairwise (fun a b => a.endLineNumber + 2 ≤ b.startLineNumber) →
      (∀ x ∈ l2, WellFormed x) →
      l2.Pairwise (fun a b => a.endLineNumber + 2 ≤ b.startLineNumber) →
      (∀ n, Covers l1 n ↔ Covers l2 n) →
      l1.map QtCodeSnippet.range = l2.map QtCodeSnippet.range := by
  induction l1 with
  | nil =>
    intro l2 _ _ hwf2 _ hcov
    cases l2 with
    | nil => rfl
    | cons b t2 =>
      have hb := hwf2 b (List.mem_cons_self _ _)
      have : Covers (b :: t2) b.startLineNumber :=
        (covers_cons b t2 _).mpr (Or.inl ⟨le_refl _, hb⟩)
      exact absurd ((hcov _).mpr this) (covers_nil _)
  | cons a t1 ih =>
    intro l2 hwf1 hpw1 hwf2 hpw2 hcov
    have ha := hwf1 a (List.mem_cons_self _ _)
    cases l2 with
    | nil =>
      have : Covers (a :: t1) a.startLineNumber :=
        (covers_cons a t1 _).mpr (Or.inl ⟨le_refl _, ha⟩)
      exact absurd ((hcov _).mp this) (covers_nil _)
    | cons b t2 =>
      have hb := hwf2 b (List.mem_cons_self _ _)
      have ca : Covers (a :: t1) a.startLineNumber :=
        (covers_cons a t1 _).mpr (Or.inl ⟨le_refl _, ha⟩)
      have cb : Covers (b :: t2) b.startLineNumber :=
        (covers_cons b t2 _).mpr (Or.inl ⟨le_refl _, hb⟩)
      have s1 := covers_ge_head b t2 hwf2 hpw2 _ ((hcov _).mp ca)
      have s2 := covers_ge_head a t1 hwf1 hpw1 _ ((hcov _).mpr cb)
      have hs : a.startLineNumber = b.startLineNumber := le_antisymm s2 s1
      have e1 := head_end_le a b t1 t2 hpw1 hcov hs ha
      have e2 := head_end_le b a t2 t1 hpw2 (fun n => (hcov n).symm) hs.symm hb
      have he : a.endLineNumber = b.endLineNumber := le_antisymm e2 e1
      have htail : ∀ n, Covers t1 n ↔ Covers t2 n := by
        intro n
        rw [covers_tail a t1 hpw1 n, covers_tail b t2 hpw2 n, hcov n, he]
      have iht := ih t2 (fun x hx => hwf1 x (List.mem_cons_of_mem _ hx))
        (List.pairwise_cons.mp hpw1).2 (fun x hx => hwf2 x (List.mem_cons_of_mem _ hx))
        (List.pairwise_cons.mp hpw2).2 htail
      simp only [List.map_cons, QtCodeSnippet.range, hs, he]
      exact congrArg _ iht

/-! ## Insertion order -/

/-- Inserting a list of line ranges keeps the invariant. -/
theorem insertAll_inv (m_errorInfos : List ErrorInfo) (ps : List CodeSnippetParams) :
    ∀ f : QtCodeFile, SnippetListInv f.m_snippets → (∀ p ∈ ps, ParamsOk p) →
      SnippetListInv (insertAll m_errorInfos ps f).m_snippets := by
  induction ps with
  | nil => intro f hinv _; exact hinv
  | cons p ps ih =>
    intro f hinv hp
    have hp1 := hp p (List.mem_cons_self _ _)
    obtain ⟨g1, g2, g3⟩ := insertCodeSnippet_good m_errorInfos p f hinv hp1.1 hp1.2
    exact ih _ ⟨g1, g2, pairwise_neighbourGap _ g3⟩
      (fun q hq => hp q (List.mem_cons_of_mem _ hq))

/-- The lines covered after inserting a list of line ranges. -/
theorem insertAll_covers (m_errorInfos : List ErrorInfo) (ps : List CodeSnippetParams) :
    ∀ f : QtCodeFile, SnippetListInv f.m_snippets → (∀ p ∈ ps, ParamsOk p) → ∀ n,
      (Covers (insertAll m_errorInfos ps f).m_snippets n ↔
        Covers f.m_snippets n ∨ ∃ p ∈ ps, p.startLineNumber ≤ n ∧ n ≤ p.endLineNumber) := by
  induction ps with
  | nil => intro f _ _ n; simp [insertAll]
  | cons p ps ih =>
    intro f hinv hp n
    have hp1 := hp p (List.mem_cons_self _ _)
    obtain ⟨g1, g2, g3⟩ := insertCodeSnippet_good m_errorInfos p f hinv hp1.1 hp1.2
    have i := ih _ ⟨g1, g2, pairwise_neighbourGap _ g3⟩
      (fun q hq => hp q (List.mem_cons_of_mem _ hq)) n
    have c := insertCodeSnippet_covers m_errorInfos p f hinv.1 hinv.2.1 hp1 n
    simp only [insertAll, i, c, List.mem_cons, exists_eq_or_imp]
    tauto

/-- Two lists of line ranges with the same members give the same line
ranges, whatever the order of insertion. -/
theorem insertAll_ranges_eq (m_errorInfos : List ErrorInfo) (ps qs : List CodeSnippetParams)
    (f : QtCodeFile) (hinv : SnippetListInv f.m_snippets)
    (hp : ∀ p ∈ ps, ParamsOk p) (hmem : ∀ p, p ∈ ps ↔ p ∈ qs) :
    (insertAll m_errorInfos ps f).m_snippets.map QtCodeSnippet.range =
      (insertAll m_errorInfos qs f).m_snippets.map QtCodeSnippet.range := by
  have hq : ∀ p ∈ qs, ParamsOk p := fun p h => hp p ((hmem p).mpr h)
  obtain ⟨a1, _, a3⟩ := insertAll_inv m_errorInfos ps f hinv hp
  obtain ⟨b1, _, b3⟩ := insertAll_inv m_errorInfos qs f hinv hq
  apply ranges_unique _ _ a1 (neighbourGap_pairwise _ a1 a3) b1 (neighbourGap_pairwise _ b1 b3)
  intro n
  rw [insertAll_covers m_errorInfos ps f hinv hp n, insertAll_covers m_errorInfos qs f hinv hq n]
  constructor
  · rintro (h | ⟨p, hp', h⟩)
    · exact Or.inl h
    · exact Or.inr ⟨p, (hmem p).mp hp', h⟩
  · rintro (h | ⟨p, hp', h⟩)
    · exact Or.inl h
    · exact Or.inr ⟨p, (hmem p).mpr hp', h⟩

/-- C10, amended: insertion order does not matter when no end line is the
largest `uint` 4294967295. On a list of line ranges (start <= end), each
starting at least 2 lines after the end of the one before it and none ending
at 4294967295, inserting the range of `p1` and then that of `p2` (both with
start <= end < 4294967295) gives the same sequence of line ranges as
inserting `p2` and then `p1`; and inserting the ranges of a list one after
the other gives the same line ranges for every permutation of the list. -/
theorem insertCodeSnippet_order_irrelevant (m_errorInfos : List ErrorInfo)
    (p1 p2 : CodeSnippetParams) (f : QtCodeFile)
    (hinv : SnippetListInv f.m_snippets)
    (h1 : p1.startLineNumber ≤ p1.endLineNumber) (hn1 : p1.endLineNumber + 1 < UINT_MOD)
    (h2 : p2.startLineNumber ≤ p2.endLineNumber) (hn2 : p2.endLineNumber + 1 < UINT_MOD) :
    (QtCodeFile.insertCodeSnippet m_errorInfos p2
        (QtCodeFile.insertCodeSnippet m_errorInfos p1 f).2).2.m_snippets.map QtCodeSnippet.range =
      (QtCodeFile.insertCodeSnippet m_errorInfos p1
        (QtCodeFile.insertCodeSnippet m_errorInfos p2 f).2).2.m_snippets.map
          QtCodeSnippet.range ∧
    ∀ ps qs : List CodeSnippetParams, ps.Perm qs → (∀ p ∈ ps, ParamsOk p) →
      (insertAll m_errorInfos ps f).m_snippets.map QtCodeSnippet.range =
        (insertAll m_errorInfos qs f).m_snippets.map QtCodeSnippet.range := by
  constructor
  · have h := insertAll_ranges_eq m_errorInfos [p1, p2] [p2, p1] f hinv
      (by
        intro p hp
        rcases List.mem_cons.mp hp with rfl | hp
        · exact ⟨h1, hn1⟩
        · rw [List.mem_singleton] at hp
          subst hp
          exact ⟨h2, hn2⟩)
      (by
        intro p
        simp only [List.mem_cons, List.mem_singleton, List.not_mem_nil, or_false]
        tauto)
    exact h
  · intro ps qs hperm hp
    exact insertAll_ranges_eq m_errorInfos ps qs f hinv hp (fun p => hperm.mem_iff)

theorem insertCodeSnippet_order_irrelevant_witness :
    SnippetListInv (fileWith [snippetAt 1 3, snippetAt 10 20]).m_snippets ∧
    ParamsOk (paramsAt 21 30) ∧ ParamsOk (paramsAt 5 8) ∧
    (QtCodeFile.insertCodeSnippet [] (paramsAt 5 8)
        (QtCodeFile.insertCodeSnippet [] (paramsAt 21 30)
          (fileWith [snippetAt 1 3, snippetAt 10 20])).2).2.m_snippets.map QtCodeSnippet.range =
      (QtCodeFile.insertCodeSnippet [] (paramsAt 21 30)
        (QtCodeFile.insertCodeSnippet [] (paramsAt 5 8)
          (fileWith [snippetAt 1 3, snippetAt 10 20])).2).2.m_snippets.map
            QtCodeSnippet.range :=
  ⟨by decide, by decide, by decide,
    (insertCodeSnippet_order_irrelevant [] (paramsAt 21 30) (paramsAt 5 8)
      (fileWith [snippetAt 1 3, snippetAt 10 20]) (by decide) (by decide) (by decide)
      (by decide) (by decide)).1⟩

/-! ## Why the invariant asks for line ranges below the largest uint -/

/-- At the largest `uint` the `end + 1` of the loop wraps to 0: inserting
`[5, 4294967295]` next to `[10, 20]` stops in front of it without merging. -/
theorem insertCodeSnippet_wraps_at_largest_uint :
    (QtCodeFile.insertCodeSnippet [] (paramsAt 5 4294967295)
      (fileWith [snippetAt 10 20])).2.m_snippets.map QtCodeSnippet.range =
      [(5, 4294967295), (10, 20)] := by
  rw [(insertCodeSnippet_snippets [] _ _).1, map_show_range]
  simp [scan, fileWith, QtCodeFile.setSnippets, QtCodeFile.new, snippetAt, paramsAt,
    QtCodeSnippet.ofParams, QtCodeSnippet.show, QtCodeSnippet.range, UINT_MOD]

/-- A stored snippet with start > end is stepped over by a range that lies
before its start: inserting `[5, 5]` next to `[10, 3]` puts it behind. -/
theorem insertCodeSnippet_behind_reversed_range :
    (QtCodeFile.insertCodeSnippet [] (paramsAt 5 5)
      (fileWith [snippetAt 10 3])).2.m_snippets.map QtCodeSnippet.range =
      [(10, 3), (5, 5)] := by
  rw [(insertCodeSnippet_snippets [] _ _).1, map_show_range]
  simp [scan, fileWith, QtCodeFile.setSnippets, QtCodeFile.new, snippetAt, paramsAt,
    QtCodeSnippet.ofParams, QtCodeSnippet.show, QtCodeSnippet.range, UINT_MOD]

/-! ## findFirstActiveSnippet and the full-file snippet -/

/-- The method `findFirstActiveSnippet` is defined exactly on the files that
have a location file, an enabled maximize control or a full-file snippet. -/
theorem findFirstActiveSnippet_defined_iff (isActive : QtCodeSnippet → Bool) (f : QtCodeFile) :
    (QtCodeFile.findFirstActiveSnippet isActive f).isSome = true ↔
      FileSnippetPresent f := by
  unfold QtCodeFile.findFirstActiveSnippet FileSnippetPresent
  cases h1 : f.m_locationFile <;> cases h2 : f.maximizeButtonEnabled <;>
    cases h3 : f.m_fileSnippet <;> simp
  split_ifs <;> simp

/-- Which operations of `QtCodeFile` leave a file that has its full-file
snippet when it needs one: all of them except `setMaximized`, which does so
only for a file that already has a full-file snippet. -/
theorem fileSnippetPresent_after (m_errorInfos : List ErrorInfo) (params : CodeSnippetParams)
    (locationFile : Option TokenLocationFile) (refCount : Int) (f : QtCodeFile) :
    FileSnippetPresent (QtCodeFile.addCodeSnippet m_errorInfos params f) ∧
    FileSnippetPresent (QtCodeFile.insertCodeSnippet m_errorInfos params f).2 ∧
    FileSnippetPresent (QtCodeFile.setLocationFile m_errorInfos locationFile refCount f) ∧
    FileSnippetPresent (QtCodeFile.setMinimized f) ∧
    FileSnippetPresent (QtCodeFile.setSnippets f) ∧
    (FileSnippetPresent (QtCodeFile.setMaximized f) ↔
      (f.m_locationFile = none → f.m_fileSnippet.isSome = true)) := by
  have hu : ∀ (n : Int) (g : QtCodeFile),
      (QtCodeFile.updateRefCount m_errorInfos n g).maximizeButtonEnabled =
        g.maximizeButtonEnabled ∧
      (QtCodeFile.updateRefCount m_errorInfos n g).m_fileSnippet = g.m_fileSnippet ∧
      (QtCodeFile.updateRefCount m_errorInfos n g).m_locationFile = g.m_locationFile := by
    intro n g
    unfold QtCodeFile.updateRefCount
    split_ifs <;> exact ⟨rfl, rfl, rfl⟩
  refine ⟨?_, ?_, ?_, ?_, ?_, ?_⟩
  · unfold FileSnippetPresent
    by_cases hr : params.reduced = true <;>
      by_cases hw : params.locationFile.isWholeCopy = true <;>
      by_cases h1 : params.refCount = -1 <;>
      simp [QtCodeFile.addCodeSnippet, hr, hw, h1, hu, QtCodeFile.setMaximized,
        QtCodeFile.setSnippets]
  · unfold FileSnippetPresent QtCodeFile.insertCodeSnippet
    simp [hu, QtCodeFile.setSnippets]
  · unfold FileSnippetPresent QtCodeFile.setLocationFile
    simp [hu, QtCodeFile.setMinimized]
  · simp [FileSnippetPresent, QtCodeFile.setMinimized]
  · simp [FileSnippetPresent, QtCodeFile.setSnippets]
  · unfold FileSnippetPresent
    cases h3 : f.m_fileSnippet <;> simp [QtCodeFile.setMaximized, h3]

/-- The files after a method was applied through a pointer: the files
before, except that the one at the position was replaced by its image. -/
theorem mem_modify (g : QtCodeFile → QtCodeFile) (files : List QtCodeFile) :
    ∀ (i : Nat) (y : QtCodeFile), y ∈ List.modify g i files →
      y ∈ files ∨ ∃ x, files[i]? = some x ∧ y = g x := by
  induction files with
  | nil => intro i y hy; cases i <;> simp [List.modify] at hy
  | cons a t ih =>
    intro i y hy
    cases i with
    | zero =>
      simp only [List.modify_zero_cons, List.mem_cons] at hy
      rcases hy with rfl | hy
      · exact Or.inr ⟨a, by simp, rfl⟩
      · exact Or.inl (List.mem_cons_of_mem _ hy)
    | succ i =>
      simp only [List.modify_succ_cons, List.mem_cons] at hy
      rcases hy with rfl | hy
      · exact Or.inl (List.mem_cons_self _ _)
      · rcases ih i y hy with h | ⟨x, hx, rfl⟩
        · exact Or.inl (List.mem_cons_of_mem _ h)
        · exact Or.inr ⟨x, by simpa using hx, rfl⟩

/-- The file that the search of `getFile` finds has the path. -/
theorem findFile_some (filePath : FilePath) (files : List QtCodeFile) :
    ∀ k i, QtCodeFileList.findFile filePath files k = some i →
      ∃ x, files[i - k]? = some x ∧ x.m_filePath = filePath ∧ k ≤ i := by
  induction files with
  | nil => intro k i h; simp [QtCodeFileList.findFile] at h
  | cons a t ih =>
    intro k i h
    by_cases ha : a.m_filePath = filePath
    · simp [QtCodeFileList.findFile, ha] at h
      subst h
      exact ⟨a, by simp, ha, le_refl _⟩
    · simp [QtCodeFileList.findFile, ha] at h
      obtain ⟨x, hx, hp, hk⟩ := ih (k + 1) i h
      refine ⟨x, ?_, hp, by omega⟩
      have e : i - k = (i - (k + 1)) + 1 := by omega
      rw [e]
      simpa using hx

/-- Applying, through the pointer `getFile` returns, a method after which a
file has its full-file snippet when it needs one keeps this for all files. -/
theorem fileSnippetPresent_getFile (path : FilePath) (l : QtCodeFileList)
    (g : QtCodeFile → QtCodeFile) (hg : ∀ x, FileSnippetPresent (g x))
    (hl : ∀ f ∈ l.m_files, FileSnippetPresent f) :
    ∀ i l', QtCodeFileList.getFile path l = (some i, l') →
      ∀ y ∈ (QtCodeFileList.onFile i g l').m_files, FileSnippetPresent y := by
  intro i l' hgf y hy
  unfold QtCodeFileList.getFile at hgf
  cases hfind : QtCodeFileList.findFile path l.m_files 0 with
  | some j =>
    simp only [hfind, Prod.mk.injEq, Option.some.injEq] at hgf
    obtain ⟨rfl, rfl⟩ := hgf
    rcases mem_modify g _ _ y hy with h | ⟨x, _, rfl⟩
    · exact hl y h
    · exact hg x
  | none =>
    simp only [hfind, Prod.mk.injEq, Option.some.injEq] at hgf
    obtain ⟨rfl, rfl⟩ := hgf
    have hm : ∀ (files : List QtCodeFile) (x : QtCodeFile),
        List.modify g files.length (files ++ [x]) = files ++ [g x] := by
      intro files x
      induction files with
      | nil => rfl
      | cons a t ih => simp [List.modify_succ_cons, ih]
    simp only [QtCodeFileList.onFile, hm] at hy
    rcases List.mem_append.mp hy with h | h
    · exact hl y h
    · rw [List.mem_singleton] at h
      subst h
      exact hg _

/-- Applying a method that keeps the property to one file keeps it for all. -/
theorem fileSnippetPresent_onFile (i : Nat) (l : QtCodeFileList)
    (g : QtCodeFile → QtCodeFile)
    (hg : ∀ x, FileSnippetPresent x → FileSnippetPresent (g x))
    (hl : ∀ f ∈ l.m_files, FileSnippetPresent f) :
    ∀ y ∈ (QtCodeFileList.onFile i g l).m_files, FileSnippetPresent y := by
  intro y hy
  rcases mem_modify g _ _ y hy with h | ⟨x, hx, rfl⟩
  · exact hl y h
  · exact hg x (hl x (List.getElem?_mem hx))

/-- When `setFileMaximized` is only called for a path whose files have a
full-file snippet, every file without a location file whose maximize control
is disabled has a full-file snippet. -/
theorem guarded_fileSnippetPresent (l : QtCodeFileList) (h : MaximizeGuardedReachable l) :
    ∀ f ∈ l.m_files, FileSnippetPresent f := by
  have hmod : ∀ (t : Nat) (x : QtCodeFile), FileSnippetPresent x →
      FileSnippetPresent (QtCodeFile.setModificationTime t x) := fun _ _ hx => hx
  induction h with
  | created => intro f hf; simp [QtCodeFileList.new] at hf
  | addCodeSnippet params insert l _ ih =>
    unfold QtCodeFileList.addCodeSnippet
    cases hgf : QtCodeFileList.getFile params.locationFile.filePath l with
    | mk o l' =>
      cases o with
      | none => simp [QtCodeFileList.getFile] at hgf; split at hgf <;> simp at hgf
      | some i =>
        cases insert with
        | true =>
          simp only [if_true]
          apply fileSnippetPresent_onFile _ _ _ (hmod _)
          exact fileSnippetPresent_getFile _ l _
            (fun x => (fileSnippetPresent_after l'.m_errorInfos params none 0 x).2.1) ih i l' hgf
        | false =>
          simp only [Bool.false_eq_true, if_false]
          apply fileSnippetPresent_onFile _ _ _ (hmod _)
          exact fileSnippetPresent_getFile _ l _
            (fun x => (fileSnippetPresent_after l'.m_errorInfos params none 0 x).1) ih i l' hgf
  | addFile locationFile refCount modificationTime l _ ih =>
    unfold QtCodeFileList.addFile
    cases hgf : QtCodeFileList.getFile locationFile.filePath l with
    | mk o l' =>
      cases o with
      | none => simp [QtCodeFileList.getFile] at hgf; split at hgf <;> simp at hgf
      | some i =>
        apply fileSnippetPresent_onFile _ _ _ (hmod _)
        exact fileSnippetPresent_getFile _ l _
          (fun x => (fileSnippetPresent_after l'.m_errorInfos (paramsAt 0 0)
            (some locationFile) refCount x).2.2.1) ih i l' hgf
  | setFileMinimized path l _ ih =>
    unfold QtCodeFileList.setFileMinimized
    cases hgf : QtCodeFileList.getFile path l with
    | mk o l' =>
      cases o with
      | none => simp [QtCodeFileList.getFile] at hgf; split at hgf <;> simp at hgf
      | some i =>
        exact fileSnippetPresent_getFile _ l _
          (fun x => (fileSnippetPresent_after [] (paramsAt 0 0) none 0 x).2.2.2.1) ih i l' hgf
  | setFileSnippets path l _ ih =>
    unfold QtCodeFileList.setFileSnippets
    cases hgf : QtCodeFileList.getFile path l with
    | mk o l' =>
      cases o with
      | none => simp [QtCodeFileList.getFile] at hgf; split at hgf <;> simp at hgf
      | some i =>
        exact fileSnippetPresent_getFile _ l _
          (fun x => (fileSnippetPresent_after [] (paramsAt 0 0) none 0 x).2.2.2.2.1) ih i l' hgf
  | setFileMaximized path l _ hex hall ih =>
    obtain ⟨f0, hf0, hp0⟩ := hex
    cases hfind : QtCodeFileList.findFile path l.m_files 0 with
    | none => exact absurd hp0 ((findFile_eq_none path l.m_files 0).mp hfind f0 hf0)
    | some i =>
      obtain ⟨x, hx, hxp, _⟩ := findFile_some path l.m_files 0 i hfind
      rw [(setFile_present path l i hfind).2.2]
      intro y hy
      rcases mem_modify _ _ _ y hy with h | ⟨x', hx', rfl⟩
      · exact ih y h
      · have hxx : x' = x := by
          simp only [Nat.sub_zero] at hx
          rw [hx] at hx'
          exact (Option.some.inj hx').symm
        subst hxx
        have hmem : x' ∈ l.m_files := List.getElem?_mem hx'
        exact (fileSnippetPresent_after [] (paramsAt 0 0) none 0 x').2.2.2.2.2.mpr
          (fun _ => hall x' hmem hxp)

/-- The loop of `getFirstActiveSnippet` is defined when every file that
needs its full-file snippet has one. -/
theorem firstActiveSnippetLoop_defined (isActive : QtCodeSnippet → Bool)
    (files : List QtCodeFile) (h : ∀ f ∈ files, FileSnippetPresent f) :
    (QtCodeFileList.firstActiveSnippetLoop isActive files).isSome = true := by
  induction files with
  | nil => rfl
  | cons a t ih =>
    have ha := (findFirstActiveSnippet_defined_iff isActive a).mpr (h a (List.mem_cons_self _ _))
    have it := ih (fun f hf => h f (List.mem_cons_of_mem _ hf))
    unfold QtCodeFileList.firstActiveSnippetLoop
    cases hr : QtCodeFile.findFirstActiveSnippet isActive a with
    | none => rw [hr] at ha; simp at ha
    | some r =>
      cases r with
      | none => exact it
      | some s => rfl

/-- When `setFileMaximized` is only called for a path whose files have a
full-file snippet, `getFirstActiveSnippet` is defined. -/
theorem guarded_getFirstActiveSnippet_defined (isActive : QtCodeSnippet → Bool)
    (l : QtCodeFileList) (h : MaximizeGuardedReachable l) :
    (QtCodeFileList.getFirstActiveSnippet isActive l).isSome = true :=
  firstActiveSnippetLoop_defined isActive l.m_files (guarded_fileSnippetPresent l h)

/-- C11, the code at the failing input: after `addCodeSnippet` (append path)
of a partial snippet of `a.cpp` and `setFileMaximized("a.cpp")`, a state
reachable through the public operations, the file `a.cpp` has no location
file, its maximize control is disabled and it has no full-file snippet;
`findFirstActiveSnippet` on it, and with it `getFirstActiveSnippet`,
dereferences the null `m_fileSnippet`. -/
theorem findFirstActiveSnippet_reads_absent_file_snippet (isActive : QtCodeSnippet → Bool) :
    ListReachable listMaximizedA ∧
    (∃ f ∈ listMaximizedA.m_files, f.m_filePath = "a.cpp" ∧ f.m_locationFile = none ∧
      f.maximizeButtonEnabled = false ∧ f.m_fileSnippet = none ∧
      QtCodeFile.findFirstActiveSnippet isActive f = none) ∧
    ¬ (∀ f ∈ listMaximizedA.m_files, FileSnippetPresent f) ∧
    QtCodeFileList.getFirstActiveSnippet isActive listMaximizedA = none := by
  refine ⟨?_, ?_, by decide, rfl⟩
  · exact ListReachable.setFileMaximized "a.cpp" _
      (ListReachable.addCodeSnippet (paramsAt 10 20) false _ ListReachable.created)
  · refine ⟨QtCodeFile.setMaximized (QtCodeFile.setModificationTime 0
      (QtCodeFile.addCodeSnippet [] (paramsAt 10 20)
        { QtCodeFile.new "a.cpp" with visible := false })), ?_, rfl, rfl, rfl, rfl, rfl⟩
    decide

/-! ## The largest uint as an end line -/

/-- C2, as stated, fails: the list `[10, 20]` is sorted, non-overlapping and
non-adjacent, and `[5, 4294967295]` has start <= end and touches `[10, 20]`,
so the reference merge is the single range `[5, 4294967295]`; but `end + 1`
wraps to 0 in the loop, which stops in front of `[10, 20]` and leaves
`[5, 4294967295], [10, 20]`. -/
theorem insertCodeSnippet_merge_differs_at_largest_uint :
    (∀ x ∈ (fileWith [snippetAt 10 20]).m_snippets, WellFormed x) ∧
    NeighbourGap (fileWith [snippetAt 10 20]).m_snippets ∧
    (paramsAt 5 4294967295).startLineNumber ≤ (paramsAt 5 4294967295).endLineNumber ∧
    (QtCodeFile.insertCodeSnippet [] (paramsAt 5 4294967295)
      (fileWith [snippetAt 10 20])).2.m_snippets.map QtCodeSnippet.range =
      [(5, 4294967295), (10, 20)] ∧
    ((fileWith [snippetAt 10 20]).m_snippets.filter (endsBefore 5)).map QtCodeSnippet.range ++
      (minStart 5 ((fileWith [snippetAt 10 20]).m_snippets.filter (touches 5 4294967295)),
        maxEnd 4294967295
          ((fileWith [snippetAt 10 20]).m_snippets.filter (touches 5 4294967295))) ::
      ((fileWith [snippetAt 10 20]).m_snippets.filter (startsAfter 4294967295)).map
        QtCodeSnippet.range = [(5, 4294967295)] := by
  refine ⟨by decide, by decide, by decide, ?_, by decide⟩
  rw [(insertCodeSnippet_snippets [] _ _).1, map_show_range]
  simp [scan, fileWith, QtCodeFile.setSnippets, QtCodeFile.new, snippetAt, paramsAt,
    QtCodeSnippet.ofParams, QtCodeSnippet.show, QtCodeSnippet.range, UINT_MOD]

/-- C3, as stated, fails: for `a = 10 <= b = 20 < c = 4294967295`, inserting
`[10, 20]` and then `[21, 4294967295]` into a new file leaves two snippets,
`[21, 4294967295], [10, 20]`, not the single range `[10, 4294967295]`. -/
theorem insertCodeSnippet_adjacent_apart_at_largest_uint :
    (10 : Nat) ≤ 20 ∧ (20 : Nat) < 4294967295 ∧
    (QtCodeFile.insertCodeSnippet [] (paramsAt 21 4294967295)
        (QtCodeFile.insertCodeSnippet [] (paramsAt 10 20)
          (QtCodeFile.new "a.cpp")).2).2.m_snippets.map QtCodeSnippet.range =
      [(21, 4294967295), (10, 20)] ∧
    (QtCodeFile.insertCodeSnippet [] (paramsAt 21 4294967295)
        (QtCodeFile.insertCodeSnippet [] (paramsAt 10 20)
          (QtCodeFile.new "a.cpp")).2).2.m_snippets.map QtCodeSnippet.range ≠
      [(10, 4294967295)] := by
  have h : (QtCodeFile.insertCodeSnippet [] (paramsAt 21 4294967295)
        (QtCodeFile.insertCodeSnippet [] (paramsAt 10 20)
          (QtCodeFile.new "a.cpp")).2).2.m_snippets.map QtCodeSnippet.range =
      [(21, 4294967295), (10, 20)] := by
    rw [(insertCodeSnippet_snippets [] _ _).1,
      insertCodeSnippet_empty [] (paramsAt 10 20) (QtCodeFile.new "a.cpp") rfl, map_show_range]
    simp [scan, paramsAt, QtCodeSnippet.ofParams, QtCodeSnippet.show, QtCodeSnippet.range,
      UINT_MOD]
  refine ⟨by decide, by decide, h, ?_⟩
  rw [h]
  decide

/-- C4, as stated, fails: for `a = 5 <= b = 8` and `d = 4294967295 >= b + 2`,
inserting `[10, 4294967295]`, then `[5, 8]`, then `[9, 9]` into a new file
leaves `[10, 4294967295], [5, 8]` after the second insertion (not
`[5, 8], [10, 4294967295]`) and `[10, 4294967295], [5, 9]` after the third
(not the single range `[5, 4294967295]`). -/
theorem insertCodeSnippet_bridge_fails_at_largest_uint :
    (5 : Nat) ≤ 8 ∧ (4294967295 : Nat) ≥ 8 + 2 ∧
    (QtCodeFile.insertCodeSnippet [] (paramsAt 5 8)
        (QtCodeFile.insertCodeSnippet [] (paramsAt 10 4294967295)
          (QtCodeFile.new "a.cpp")).2).2.m_snippets.map QtCodeSnippet.range =
      [(10, 4294967295), (5, 8)] ∧
    (QtCodeFile.insertCodeSnippet [] (paramsAt 9 9)
        (QtCodeFile.insertCodeSnippet [] (paramsAt 5 8)
          (QtCodeFile.insertCodeSnippet [] (paramsAt 10 4294967295)
            (QtCodeFile.new "a.cpp")).2).2).2.m_snippets.map QtCodeSnippet.range =
      [(10, 4294967295), (5, 9)] := by
  have h2 : (QtCodeFile.insertCodeSnippet [] (paramsAt 5 8)
        (QtCodeFile.insertCodeSnippet [] (paramsAt 10 4294967295)
          (QtCodeFile.new "a.cpp")).2).2.m_snippets =
      [snippetAt 10 4294967295, snippetAt 5 8] := by
    rw [(insertCodeSnippet_snippets [] _ _).1,
      insertCodeSnippet_empty [] (paramsAt 10 4294967295) (QtCodeFile.new "a.cpp") rfl]
    simp [scan, paramsAt, snippetAt, QtCodeSnippet.ofParams, QtCodeSnippet.show, UINT_MOD]
  refine ⟨by decide, by decide, ?_, ?_⟩
  · rw [h2]
    rfl
  · rw [(insertCodeSnippet_snippets [] _ _).1, h2, map_show_range]
    simp [scan, absorb, paramsAt, snippetAt, QtCodeSnippet.ofParams, QtCodeSnippet.merged,
      QtCodeSnippet.range, UINT_MOD]

/-- C10, as stated, fails: on a new file, inserting `[5, 4294967295]` and
then `[1, 2]` leaves `[5, 4294967295], [1, 2]`, while inserting `[1, 2]` and
then `[5, 4294967295]` leaves `[1, 2], [5, 4294967295]`. -/
theorem insertCodeSnippet_order_matters_at_largest_uint :
    (paramsAt 5 4294967295).startLineNumber ≤ (paramsAt 5 4294967295).endLineNumber ∧
    (paramsAt 1 2).startLineNumber ≤ (paramsAt 1 2).endLineNumber ∧
    (QtCodeFile.insertCodeSnippet [] (paramsAt 1 2)
        (QtCodeFile.insertCodeSnippet [] (paramsAt 5 4294967295)
          (QtCodeFile.new "a.cpp")).2).2.m_snippets.map QtCodeSnippet.range =
      [(5, 4294967295), (1, 2)] ∧
    (QtCodeFile.insertCodeSnippet [] (paramsAt 5 4294967295)
        (QtCodeFile.insertCodeSnippet [] (paramsAt 1 2)
          (QtCodeFile.new "a.cpp")).2).2.m_snippets.map QtCodeSnippet.range =
      [(1, 2), (5, 4294967295)] := by
  refine ⟨by decide, by decide, ?_, ?_⟩
  · rw [(insertCodeSnippet_snippets [] _ _).1,
      insertCodeSnippet_empty [] (paramsAt 5 4294967295) (QtCodeFile.new "a.cpp") rfl,
      map_show_range]
    simp [scan, paramsAt, QtCodeSnippet.ofParams, QtCodeSnippet.show, QtCodeSnippet.range,
      UINT_MOD]
  · rw [(insertCodeSnippet_snippets [] _ _).1,
      insertCodeSnippet_empty [] (paramsAt 1 2) (QtCodeFile.new "a.cpp") rfl, map_show_range]
    simp [scan, paramsAt, QtCodeSnippet.ofParams, QtCodeSnippet.show, QtCodeSnippet.range,
      UINT_MOD]

end Sourcetrail
